import Mathlib

/-!
Verification of the bimap container (dual-view treap).

The embedding models the pointer-linked treap of `treap.h` as a functional
binary tree over node identifiers.  A node of the C++ code is a heap
allocation holding parent/left/right links, a priority, and (through the
enclosing pair record) its keys; here a node is a natural-number id, the
tree shape replaces the left/right links (parent links are derivable from
the shape and are therefore not stored), and the key / priority fields are
read through accessor functions `getter : Nat → K` and `prio : Nat → Int`,
mirroring the `Getter` parameter and the `priority` field of the source.
-/

inductive TTree : Type where
  | nil : TTree
  | node : TTree → Nat → TTree → TTree
deriving DecidableEq, Repr

namespace TTree

/-- In-order traversal: the sequence an iterator walk from `first()` to the
sentinel visits. -/
def inorder : TTree → List Nat
  | nil => []
  | node l v r => inorder l ++ v :: inorder r

def numNodes : TTree → Nat
  | nil => 0
  | node l _ r => numNodes l + numNodes r + 1

end TTree

section TreapOps

variable {K : Type}

/-- `treap::split` (treap.h): partition a subtree into keys `< key` and
keys `>= key`, comparing through `less` and reading keys through `getter`. -/
def tsplit (less : K → K → Bool) (getter : Nat → K) :
    TTree → K → TTree × TTree
  | .nil, _ => (.nil, .nil)
  | .node l v r, key =>
    if less (getter v) key then
      let s := tsplit less getter r key
      (.node l v s.1, s.2)
    else
      let s := tsplit less getter l key
      (s.1, .node s.2 v r)

/-- `treap::merge` (treap.h): concatenate two trees, all keys of the first
expected below all keys of the second; the root with the strictly larger
priority wins. -/
def tmerge (prio : Nat → Int) : TTree → TTree → TTree
  | t1, .nil => t1
  | .nil, t2 => t2
  | .node l1 v1 r1, .node l2 v2 r2 =>
    if prio v1 > prio v2 then
      .node l1 v1 (tmerge prio r1 (.node l2 v2 r2))
    else
      .node (tmerge prio (.node l1 v1 r1) l2) v2 r2
termination_by t1 t2 => t1.numNodes + t2.numNodes
decreasing_by
  all_goals simp [TTree.numNodes]
  all_goals omega

/-- `treap::insert(tree, node, getter)` (treap.h): a node with dominating
priority splits the tree and becomes the root; otherwise recurse by key. -/
def tinsert (less : K → K → Bool) (getter : Nat → K) (prio : Nat → Int) :
    TTree → Nat → TTree
  | .nil, nd => .node .nil nd .nil
  | .node l v r, nd =>
    if prio nd > prio v then
      let s := tsplit less getter (.node l v r) (getter nd)
      .node s.1 nd s.2
    else if less (getter nd) (getter v) then
      .node (tinsert less getter prio l nd) v r
    else
      .node l v (tinsert less getter prio r nd)

/-- `treap::remove(tree, node)` (treap.h): replace the node by the merge of
its two children, relinking at the former parent slot.  Functionally this
removes the node with the given id. -/
def tremove (prio : Nat → Int) : TTree → Nat → TTree
  | .nil, _ => .nil
  | .node l v r, target =>
    if v = target then tmerge prio l r
    else .node (tremove prio l target) v (tremove prio r target)

/-- `treap::find(key, node, getter)` (treap.h): BST descent; `none` models
returning the sentinel (`last()`). -/
def tfind (less : K → K → Bool) (getter : Nat → K) : TTree → K → Option Nat
  | .nil, _ => none
  | .node l v r, key =>
    if less (getter v) key then tfind less getter r key
    else if less key (getter v) then tfind less getter l key
    else some v

/-- `treap::lower_bound` descent loop: `res` records the last node whose
key was not below the bound. -/
def lbAux (less : K → K → Bool) (getter : Nat → K) (key : K) :
    TTree → Option Nat → Option Nat
  | .nil, res => res
  | .node l v r, res =>
    if !(less (getter v) key) then lbAux less getter key l (some v)
    else lbAux less getter key r res

/-- `treap::lower_bound(key, getter)` (treap.h); `none` models the sentinel. -/
def tlowerBound (less : K → K → Bool) (getter : Nat → K)
    (t : TTree) (key : K) : Option Nat :=
  lbAux less getter key t none

/-- `treap::upper_bound` descent loop. -/
def ubAux (less : K → K → Bool) (getter : Nat → K) (key : K) :
    TTree → Option Nat → Option Nat
  | .nil, res => res
  | .node l v r, res =>
    if less key (getter v) then ubAux less getter key l (some v)
    else ubAux less getter key r res

/-- `treap::upper_bound(key, getter)` (treap.h); `none` models the sentinel. -/
def tupperBound (less : K → K → Bool) (getter : Nat → K)
    (t : TTree) (key : K) : Option Nat :=
  ubAux less getter key t none

/-- `treap::first()` (treap.h): walk to the leftmost node from the
sentinel; the sentinel itself (`none`) when the tree is empty. -/
def tfirst : TTree → Option Nat
  | .nil => none
  | .node .nil v _ => some v
  | .node (.node a b c) _ _ => tfirst (.node a b c)

/-- `node_tree::next()` (treap.h): with a right child, the leftmost node of
the right subtree; otherwise climb parents until leaving a node upward
through a left link.  `inh` is the nearest ancestor reached by a left link
on the search path (the node the parent climb would deliver); `none` stands
for the sentinel. -/
def succAux (target : Nat) : TTree → Option Nat → Option Nat
  | .nil, _ => none
  | .node l v r, inh =>
    if v = target then
      match tfirst r with
      | some x => some x
      | none => inh
    else
      match succAux target l (some v) with
      | some x => some x
      | none => succAux target r inh

/-- In-order successor of a node in a view tree, as computed by the
pointer walk of `node_tree::next()`; `none` is the sentinel (`end`). -/
def tsucc (t : TTree) (target : Nat) : Option Nat :=
  succAux target t none

end TreapOps

/-!
The bimap facade (`bimap.h`).  A pair record (`node_t`) owns the two
concrete keys and, per view, a priority; the two view trees link the same
record.  Records are addressed by ids; `recs` is the set of live records.
An iterator of either view is an `Option Nat`: `some id` points at the
record, `none` is that view's sentinel (`end_left()` / `end_right()`).
`flip` converts between the two identities of one record and is the
identity on ids (`end.flip() = end`).
-/

/-- `bimap::node_t`: one pair record — both keys and one priority per
view sub-record. -/
structure RecLR (L R : Type) where
  keyL : L
  keyR : R
  prioL : Int
  prioR : Int
deriving DecidableEq, Repr

/-- The bimap state: live records, a fresh-id counter, the two view
trees and the tracked pair count (`size_`). -/
structure Bimap (L R : Type) where
  recs : List (Nat × RecLR L R)
  nextId : Nat
  treeL : TTree
  treeR : TTree
  size : Nat
deriving DecidableEq, Repr

namespace Bimap

variable {L R : Type} [Inhabited L] [Inhabited R]

/-- `bimap::bimap()`: the empty bimap. -/
def empty : Bimap L R := ⟨[], 0, .nil, .nil, 0⟩

/-- `key_getter<tag_left>` over a record store: read the left key of a
record (junk default outside the live set, never reached by operations). -/
def mkGetterL (recs : List (Nat × RecLR L R)) : Nat → L := fun i =>
  match recs.lookup i with
  | some rc => rc.keyL
  | none => default

/-- `key_getter<tag_right>` over a record store. -/
def mkGetterR (recs : List (Nat × RecLR L R)) : Nat → R := fun i =>
  match recs.lookup i with
  | some rc => rc.keyR
  | none => default

/-- The `priority` field of a record's left-view sub-node. -/
def mkPrioL (recs : List (Nat × RecLR L R)) : Nat → Int := fun i =>
  match recs.lookup i with
  | some rc => rc.prioL
  | none => 0

/-- The `priority` field of a record's right-view sub-node. -/
def mkPrioR (recs : List (Nat × RecLR L R)) : Nat → Int := fun i =>
  match recs.lookup i with
  | some rc => rc.prioR
  | none => 0

def getterL (m : Bimap L R) : Nat → L := mkGetterL m.recs
def getterR (m : Bimap L R) : Nat → R := mkGetterR m.recs
def prioL (m : Bimap L R) : Nat → Int := mkPrioL m.recs
def prioR (m : Bimap L R) : Nat → Int := mkPrioR m.recs

/-- `bimap::find_left`: `none` models `end_left()`. -/
def findL (lessL : L → L → Bool) (m : Bimap L R) (k : L) : Option Nat :=
  tfind lessL m.getterL m.treeL k

/-- `bimap::find_right`: `none` models `end_right()`. -/
def findR (lessR : R → R → Bool) (m : Bimap L R) (k : R) : Option Nat :=
  tfind lessR m.getterR m.treeR k

/-- `bimap::contains<tag_left>`: `find_left(key) != end_left()`. -/
def containsL (lessL : L → L → Bool) (m : Bimap L R) (k : L) : Bool :=
  (findL lessL m k).isSome

/-- `bimap::contains<tag_right>`: `find_right(key) != end_right()`. -/
def containsR (lessR : R → R → Bool) (m : Bimap L R) (k : R) : Bool :=
  (findR lessR m k).isSome

/-- The state built by the non-rejecting branch of `insert_impl`: the new
record is allocated (fresh id, the keys, the drawn priorities) and linked
into both view trees through the engine. -/
def insertedState (lessL : L → L → Bool) (lessR : R → R → Bool)
    (m : Bimap L R) (l : L) (r : R) (pL pR : Int) : Bimap L R :=
  { recs := (m.nextId, RecLR.mk l r pL pR) :: m.recs
    nextId := m.nextId + 1
    treeL := tinsert lessL (mkGetterL ((m.nextId, RecLR.mk l r pL pR) :: m.recs))
      (mkPrioL ((m.nextId, RecLR.mk l r pL pR) :: m.recs)) m.treeL m.nextId
    treeR := tinsert lessR (mkGetterR ((m.nextId, RecLR.mk l r pL pR) :: m.recs))
      (mkPrioR ((m.nextId, RecLR.mk l r pL pR) :: m.recs)) m.treeR m.nextId
    size := m.size + 1 }

/-- `bimap::insert_impl(left, right)`: reject when either key is present,
otherwise allocate a record, link it into both trees, bump the size and
return the left-view iterator to it.  Returns the new state and the
returned iterator (`none` = `end_left()`). -/
def insertB (lessL : L → L → Bool) (lessR : R → R → Bool) (m : Bimap L R)
    (l : L) (r : R) (pL pR : Int) : Bimap L R × Option Nat :=
  if containsL lessL m l || containsR lessR m r then (m, none)
  else (insertedState lessL lessR m l r pL pR, some m.nextId)

/-- `bimap::erase_impl(iterator)`: the right-view successor is computed by
`treap::remove` before unlinking, then the record is unlinked from the
right tree; the same for the left tree; the record is freed and the size
decremented.  Returns the new state and the two precomputed successors
(left-view, right-view); the `erase_left` / `erase_right` wrappers pick
the one of their tag. -/
def eraseImpl (m : Bimap L R) (id : Nat) :
    Bimap L R × Option Nat × Option Nat :=
  let resR := tsucc m.treeR id
  let treeR1 := tremove m.prioR m.treeR id
  let resL := tsucc m.treeL id
  let treeL1 := tremove m.prioL m.treeL id
  ({ recs := m.recs.filter (fun p => p.1 ≠ id)
     nextId := m.nextId
     treeL := treeL1
     treeR := treeR1
     size := m.size - 1 }, resL, resR)

/-- `bimap::erase_left(left_iterator)`. -/
def eraseLIt (m : Bimap L R) (id : Nat) : Bimap L R × Option Nat :=
  let e := eraseImpl m id
  (e.1, e.2.1)

/-- `bimap::erase_right(right_iterator)`. -/
def eraseRIt (m : Bimap L R) (id : Nat) : Bimap L R × Option Nat :=
  let e := eraseImpl m id
  (e.1, e.2.2)

/-- `bimap::erase_left(left_t const&)`: find then erase; reports whether a
pair was removed. -/
def eraseLKey (lessL : L → L → Bool) (m : Bimap L R) (k : L) :
    Bimap L R × Bool :=
  match findL lessL m k with
  | none => (m, false)
  | some id => ((eraseImpl m id).1, true)

/-- `bimap::erase_right(right_t const&)`. -/
def eraseRKey (lessR : R → R → Bool) (m : Bimap L R) (k : R) :
    Bimap L R × Bool :=
  match findR lessR m k with
  | none => (m, false)
  | some id => ((eraseImpl m id).1, true)

/-- The loop of `bimap::erase_impl(first, last)` on the left view:
`while (first != last) first = erase_impl(first);`.  The fuel bounds the
iteration count (each valid step removes a node); on a valid range the
fuel is never exhausted.  Erasing the sentinel is undefined behaviour in
the source; the model stops there. -/
def eraseLRangeAux : Nat → Bimap L R → Option Nat → Option Nat →
    Bimap L R × Option Nat
  | 0, m, _, la => (m, la)
  | fuel + 1, m, fi, la =>
    if fi = la then (m, la)
    else
      match fi with
      | none => (m, la)
      | some id =>
        let e := eraseLIt m id
        eraseLRangeAux fuel e.1 e.2 la

/-- `bimap::erase_left(first, last)`: erase the half-open left-view range;
returns `last`. -/
def eraseLRange (m : Bimap L R) (fi la : Option Nat) :
    Bimap L R × Option Nat :=
  eraseLRangeAux (m.treeL.numNodes + 1) m fi la

/-- The loop of `bimap::erase_impl(first, last)` on the right view. -/
def eraseRRangeAux : Nat → Bimap L R → Option Nat → Option Nat →
    Bimap L R × Option Nat
  | 0, m, _, la => (m, la)
  | fuel + 1, m, fi, la =>
    if fi = la then (m, la)
    else
      match fi with
      | none => (m, la)
      | some id =>
        let e := eraseRIt m id
        eraseRRangeAux fuel e.1 e.2 la

/-- `bimap::erase_right(first, last)`. -/
def eraseRRange (m : Bimap L R) (fi la : Option Nat) :
    Bimap L R × Option Nat :=
  eraseRRangeAux (m.treeR.numNodes + 1) m fi la

/-- `bimap::begin_left()`: the leftmost node of the left view. -/
def beginL (m : Bimap L R) : Option Nat := tfirst m.treeL

/-- `bimap::begin_right()`. -/
def beginR (m : Bimap L R) : Option Nat := tfirst m.treeR

/-- `bimap::erase_all()`: `erase_left(begin_left(), end_left())`. -/
def eraseAll (m : Bimap L R) : Bimap L R :=
  (eraseLRange m m.beginL none).1

/-- `bimap::at<tag_left>` (`at_left`): find in the left view; throwing
`std::out_of_range("Key not found")` on the sentinel is modelled by
`Except.error`; otherwise flip to the right sub-record and return its key. -/
def atL (lessL : L → L → Bool) (m : Bimap L R) (k : L) : Except String R :=
  match findL lessL m k with
  | none => .error "Key not found"
  | some id => .ok (m.getterR id)

/-- `bimap::at<tag_right>` (`at_right`). -/
def atR (lessR : R → R → Bool) (m : Bimap L R) (k : R) : Except String L :=
  match findR lessR m k with
  | none => .error "Key not found"
  | some id => .ok (m.getterL id)

/-- `bimap::at_or_default<tag_left>` (`at_left_or_default`): when the key
is present return the existing partner; otherwise default-construct the
right value, erase the pair currently holding that value (if any) from
both views, insert `(key, default)` with fresh priorities `pL`, `pR`, and
return the partner of the new record (`*insert(key, val).flip()`).
The `(m, default)` fallbacks model dereferencing `end` — undefined
behaviour in the source, unreachable here. -/
def atLOrDefault (lessL : L → L → Bool) (lessR : R → R → Bool)
    (m : Bimap L R) (k : L) (pL pR : Int) : Bimap L R × R :=
  match findL lessL m k with
  | some id => (m, m.getterR id)
  | none =>
    let val : R := default
    let m1 : Bimap L R :=
      match findR lessR m val with
      | some rid => (eraseImpl m rid).1
      | none => m
    let ins := insertB lessL lessR m1 k val pL pR
    match ins.2 with
    | some nid => (ins.1, (ins.1).getterR nid)
    | none => (ins.1, default)

/-- `bimap::at_or_default<tag_right>` (`at_right_or_default`): returns
`*insert(val, key)`, the left key of the new record. -/
def atROrDefault (lessL : L → L → Bool) (lessR : R → R → Bool)
    (m : Bimap L R) (k : R) (pL pR : Int) : Bimap L R × L :=
  match findR lessR m k with
  | some id => (m, m.getterL id)
  | none =>
    let val : L := default
    let m1 : Bimap L R :=
      match findL lessL m val with
      | some lid => (eraseImpl m lid).1
      | none => m
    let ins := insertB lessL lessR m1 val k pL pR
    match ins.2 with
    | some nid => (ins.1, (ins.1).getterL nid)
    | none => (ins.1, default)

/-- `bimap::lower_bound_left`. -/
def lowerBoundL (lessL : L → L → Bool) (m : Bimap L R) (k : L) : Option Nat :=
  tlowerBound lessL m.getterL m.treeL k

/-- `bimap::upper_bound_left`. -/
def upperBoundL (lessL : L → L → Bool) (m : Bimap L R) (k : L) : Option Nat :=
  tupperBound lessL m.getterL m.treeL k

/-- `bimap::lower_bound_right`. -/
def lowerBoundR (lessR : R → R → Bool) (m : Bimap L R) (k : R) : Option Nat :=
  tlowerBound lessR m.getterR m.treeR k

/-- `bimap::upper_bound_right`. -/
def upperBoundR (lessR : R → R → Bool) (m : Bimap L R) (k : R) : Option Nat :=
  tupperBound lessR m.getterR m.treeR k

/-- The (leftKey, rightKey) pairs in left-view iteration order — what the
loop `for (it = begin_left(); it != end_left(); ++it)` visits through
`*it` and `*it.flip()`. -/
def pairsL (m : Bimap L R) : List (L × R) :=
  m.treeL.inorder.map (fun id => (m.getterL id, m.getterR id))

/-- The loop body of `operator==`: compare `*it1` with `*it2` and
`*it1.flip()` with `*it2.flip()` position by position.  The source runs
the loop `while (it1 != map1.end_left())`; exhausting the second map first
would dereference its `end` (undefined behaviour; the sizes were already
checked equal, so with consistent sizes this branch is unreachable —
modelled as `false`). -/
def eqPairs [DecidableEq L] [DecidableEq R] :
    List (L × R) → List (L × R) → Bool
  | [], _ => true
  | p :: t1, q :: t2 =>
    decide (p.1 = q.1) && decide (p.2 = q.2) && eqPairs t1 t2
  | _ :: _, [] => false

/-- `operator==(bimap, bimap)`: sizes first, then the lockstep left-view
key comparison. -/
def bimapEq [DecidableEq L] [DecidableEq R] (a b : Bimap L R) : Bool :=
  decide (a.size = b.size) && eqPairs a.pairsL b.pairsL

/-- The loop of `bimap::insert_all` as run by the copy constructor:
insert every (left, right) pair of the source, in left-view order, into
the accumulator.  `fails k` says whether the `k`-th insertion throws
(allocation or comparator failure); on a throw the copy constructor's
handler erases everything inserted so far and re-raises — the error value
carries that unwound state.  `prios k` are the priorities the `k`-th new
record draws. -/
def insertAllFrom (lessL : L → L → Bool) (lessR : R → R → Bool)
    (fails : Nat → Bool) (prios : Nat → Int × Int) :
    List (L × R) → Nat → Bimap L R → Except (Bimap L R) (Bimap L R)
  | [], _, acc => .ok acc
  | (l, r) :: rest, k, acc =>
    if fails k then .error acc.eraseAll
    else
      insertAllFrom lessL lessR fails prios rest (k + 1)
        (insertB lessL lessR acc l r (prios k).1 (prios k).2).1

/-- `bimap::bimap(bimap const&)`: start from a fresh empty instance and
reinsert every pair of the source in left-view order; on a failure the
partially built instance is unwound and the failure propagated. -/
def copyB (lessL : L → L → Bool) (lessR : R → R → Bool)
    (fails : Nat → Bool) (prios : Nat → Int × Int) (src : Bimap L R) :
    Except (Bimap L R) (Bimap L R) :=
  insertAllFrom lessL lessR fails prios src.pairsL 0 empty

end Bimap

namespace Bimap

variable {L R : Type} [Inhabited L] [Inhabited R]

/-- Fold a list of (pair, priorities) through `insert` — the way the test
scenarios populate a bimap, and the shape of `insert_all`. -/
def insertListFrom (lessL : L → L → Bool) (lessR : R → R → Bool)
    (ps : List ((L × R) × Int × Int)) (m : Bimap L R) : Bimap L R :=
  ps.foldl (fun acc p => (insertB lessL lessR acc p.1.1 p.1.2 p.2.1 p.2.2).1) m

/-- Populate a fresh bimap from a list of (pair, priorities). -/
def insertList (lessL : L → L → Bool) (lessR : R → R → Bool)
    (ps : List ((L × R) × Int × Int)) : Bimap L R :=
  insertListFrom lessL lessR ps empty

end Bimap

/-- `std::less<int>` — the comparator of the concrete test scenarios. -/
def intLt : Int → Int → Bool := fun a b => decide (a < b)

/-!
Specification predicates.
-/

/-- A strict total order presented as a boolean comparator — the contract
of the `CompareLeft` / `CompareRight` template parameters (`std::less`
style). -/
structure SLO {K : Type} (less : K → K → Bool) : Prop where
  irrefl : ∀ a, less a a = false
  lt_trans : ∀ {a b c}, less a b = true → less b c = true → less a c = true
  total : ∀ a b, a = b ∨ less a b = true ∨ less b a = true

/-- The keys of a view tree in iteration order. -/
def keysOf {K : Type} (getter : Nat → K) (t : TTree) : List K :=
  t.inorder.map getter

/-- BST order: every left-subtree key compares below the node's key and
every right-subtree key above it, under the view's comparator. -/
def IsBST {K : Type} (less : K → K → Bool) (getter : Nat → K) : TTree → Prop
  | .nil => True
  | .node l v r =>
    (∀ x ∈ l.inorder, less (getter x) (getter v) = true) ∧
    (∀ x ∈ r.inorder, less (getter v) (getter x) = true) ∧
    IsBST less getter l ∧ IsBST less getter r

/-- The root of a tree (if any) has priority at most `p`. -/
def rootPrioLe (prio : Nat → Int) (p : Int) : TTree → Prop
  | .nil => True
  | .node _ v _ => prio v ≤ p

/-- Heap order: every node's priority is ≥ both children's priorities. -/
def IsHeap (prio : Nat → Int) : TTree → Prop
  | .nil => True
  | .node l v r =>
    rootPrioLe prio (prio v) l ∧ rootPrioLe prio (prio v) r ∧
    IsHeap prio l ∧ IsHeap prio r

/-- Every node of the tree has priority at most `p` (heap order restated
over whole subtrees; equivalent to `IsHeap` by transitivity). -/
def AllPrioLe (prio : Nat → Int) (p : Int) (t : TTree) : Prop :=
  ∀ x ∈ t.inorder, prio x ≤ p

/-- `IsHeap` with the child conditions strengthened to whole subtrees. -/
def IsHeapA (prio : Nat → Int) : TTree → Prop
  | .nil => True
  | .node l v r =>
    AllPrioLe prio (prio v) l ∧ AllPrioLe prio (prio v) r ∧
    IsHeapA prio l ∧ IsHeapA prio r

/-- The element following `x` in a list (the list-level reading of an
in-order successor); `none` when `x` is last or absent. -/
def afterIn : List Nat → Nat → Option Nat
  | [], _ => none
  | a :: rest, x => if a = x then rest.head? else afterIn rest x

namespace Bimap

variable {L R : Type} [Inhabited L] [Inhabited R]

/-- The internal consistency invariant of a bimap state: node ids are
distinct and live, both trees link exactly the live records (dual
membership), ids are below the allocation counter, both view trees are
BSTs under their comparators and heaps under their priorities, and the
tracked size equals the number of live pairs. -/
structure WF (lessL : L → L → Bool) (lessR : R → R → Bool)
    (m : Bimap L R) : Prop where
  nodupL : m.treeL.inorder.Nodup
  permLR : m.treeR.inorder.Perm m.treeL.inorder
  recsKeys : (m.recs.map Prod.fst).Perm m.treeL.inorder
  fresh : ∀ p ∈ m.recs, p.1 < m.nextId
  bstL : IsBST lessL m.getterL m.treeL
  bstR : IsBST lessR m.getterR m.treeR
  heapL : IsHeap m.prioL m.treeL
  heapR : IsHeap m.prioR m.treeR
  sizeEq : m.size = m.treeL.inorder.length

/-- The bimap states reachable by the public mutating interface: the
empty constructor, `insert`, `erase` by iterator (on a valid, non-end
cursor of either view), `erase` by key, `erase` of a valid iterator
range, and `at_or_default` on either side.  Priorities are arbitrary,
modelling the random source. -/
inductive Reachable (lessL : L → L → Bool) (lessR : R → R → Bool) :
    Bimap L R → Prop
  | empty : Reachable lessL lessR Bimap.empty
  | insert {m} (l : L) (r : R) (pL pR : Int) :
      Reachable lessL lessR m →
      Reachable lessL lessR (insertB lessL lessR m l r pL pR).1
  | eraseLIt {m} (id : Nat) : Reachable lessL lessR m →
      id ∈ m.treeL.inorder →
      Reachable lessL lessR (eraseLIt m id).1
  | eraseRIt {m} (id : Nat) : Reachable lessL lessR m →
      id ∈ m.treeR.inorder →
      Reachable lessL lessR (eraseRIt m id).1
  | eraseLKey {m} (k : L) : Reachable lessL lessR m →
      Reachable lessL lessR (eraseLKey lessL m k).1
  | eraseRKey {m} (k : R) : Reachable lessL lessR m →
      Reachable lessL lessR (eraseRKey lessR m k).1
  | eraseLRange {m} (i j : Nat) : Reachable lessL lessR m →
      i ≤ j → j ≤ m.treeL.inorder.length →
      Reachable lessL lessR
        (eraseLRange m m.treeL.inorder[i]? m.treeL.inorder[j]?).1
  | eraseRRange {m} (i j : Nat) : Reachable lessL lessR m →
      i ≤ j → j ≤ m.treeR.inorder.length →
      Reachable lessL lessR
        (eraseRRange m m.treeR.inorder[i]? m.treeR.inorder[j]?).1
  | atLOrDefault {m} (k : L) (pL pR : Int) : Reachable lessL lessR m →
      Reachable lessL lessR (atLOrDefault lessL lessR m k pL pR).1
  | atROrDefault {m} (k : R) (pL pR : Int) : Reachable lessL lessR m →
      Reachable lessL lessR (atROrDefault lessL lessR m k pL pR).1

end Bimap

/-!
Pointer-level model of the move-construction path.

`treap_storage`'s move constructor leaves `end_elem` at its default
member initializer (`nullptr`) and then runs `swap(other)`, which
evaluates `end_elem->left` on both sides.  Only the fields this path
touches are modelled: per-node `left` links (`heapLeft`) and each
storage's `end_elem` pointer, with `none` for `nullptr`.  Dereferencing
`none` is the error. -/
structure StoragePtr where
  end_elem : Option Nat

/-- `treap_storage::swap`: `std::swap(end_elem->left, other.end_elem->left)`
(the comparator swap has no observable effect here).  Both `end_elem`
pointers are dereferenced; a null one faults. -/
def storageSwap (heapLeft : Nat → Option Nat) (s other : StoragePtr) :
    Except Unit ((Nat → Option Nat) × StoragePtr × StoragePtr) :=
  match s.end_elem, other.end_elem with
  | some a, some b =>
    .ok (fun n => if n = a then heapLeft b
          else if n = b then heapLeft a
          else heapLeft n, s, other)
  | _, _ => .error ()

/-- `treap_storage(treap_storage&& other)`: members take their default
initializers (`end_elem = nullptr`), then `swap(other)` runs. -/
def storageMoveCtor (heapLeft : Nat → Option Nat) (other : StoragePtr) :
    Except Unit ((Nat → Option Nat) × StoragePtr × StoragePtr) :=
  storageSwap heapLeft (StoragePtr.mk none) other

/-- `bimap(bimap&& other)`: the member initializers move-construct the
left treap (hence its storage) first, then the right one; `validate_ends`
would only run afterwards.  Propagates the fault of either storage move. -/
def bimapMoveCtorPtr (heapLeft : Nat → Option Nat)
    (otherL otherR : StoragePtr) :
    Except Unit ((Nat → Option Nat) × StoragePtr × StoragePtr) :=
  match storageMoveCtor heapLeft otherL with
  | .error e => .error e
  | .ok s1 => storageMoveCtor s1.1 otherR

/-!
Lemmas about the treap engine.
-/

section TreapLemmas

variable {K : Type} {less : K → K → Bool} {getter : Nat → K} {prio : Nat → Int}

theorem inorder_node (l : TTree) (v : Nat) (r : TTree) :
    (TTree.node l v r).inorder = l.inorder ++ v :: r.inorder := rfl

theorem inorder_nil : TTree.nil.inorder = [] := rfl

theorem slo_asymm (h : SLO less) {a b : K} (hab : less a b = true) :
    less b a = false := by
  cases hba : less b a
  · rfl
  · have h2 := h.lt_trans hab hba
    rw [h.irrefl a] at h2
    exact absurd h2 Bool.false_ne_true

theorem slo_eq_of_not_lt (h : SLO less) {a b : K}
    (h1 : less a b = false) (h2 : less b a = false) : a = b := by
  rcases h.total a b with he | hl | hl
  · exact he
  · rw [hl] at h1; exact Bool.noConfusion h1
  · rw [hl] at h2; exact Bool.noConfusion h2

theorem slo_ne_of_lt (h : SLO less) {a b : K} (hab : less a b = true) :
    a ≠ b := by
  intro he; subst he; rw [h.irrefl a] at hab; exact Bool.noConfusion hab

theorem tsplit_inorder (t : TTree) (key : K) :
    (tsplit less getter t key).1.inorder ++
      (tsplit less getter t key).2.inorder = t.inorder := by
  induction t with
  | nil => simp [tsplit, TTree.inorder]
  | node l v r ihl ihr =>
    by_cases hc : less (getter v) key = true
    · simp only [tsplit, hc, if_true, TTree.inorder]
      rw [List.append_assoc, List.cons_append, ihr]
    · simp only [tsplit, hc, if_false, TTree.inorder, Bool.false_eq_true]
      rw [← List.append_assoc, ihl]

theorem tmerge_inorder (prio : Nat → Int) :
    ∀ t1 t2 : TTree, (tmerge prio t1 t2).inorder = t1.inorder ++ t2.inorder
  | t1, .nil => by cases t1 <;> simp [tmerge, TTree.inorder]
  | .nil, .node l2 v2 r2 => by simp [tmerge, TTree.inorder]
  | .node l1 v1 r1, .node l2 v2 r2 => by
    by_cases hp : prio v1 > prio v2
    · have ih := tmerge_inorder prio r1 (.node l2 v2 r2)
      simp [tmerge, hp, TTree.inorder, ih, List.append_assoc]
    · have ih := tmerge_inorder prio (.node l1 v1 r1) l2
      simp [tmerge, hp, TTree.inorder, ih, List.append_assoc]
termination_by t1 t2 => t1.numNodes + t2.numNodes
decreasing_by
  all_goals simp [TTree.numNodes]
  all_goals omega

theorem tinsert_inorder_perm (t : TTree) (nd : Nat) :
    (tinsert less getter prio t nd).inorder.Perm (nd :: t.inorder) := by
  induction t with
  | nil => simp [tinsert, TTree.inorder]
  | node l v r ihl ihr =>
    by_cases hp : prio nd > prio v
    · simp only [tinsert, hp, if_true, inorder_node]
      have hsp : (tsplit less getter (TTree.node l v r)
            (getter nd)).1.inorder ++
          (tsplit less getter (TTree.node l v r) (getter nd)).2.inorder =
          (TTree.node l v r).inorder :=
        tsplit_inorder _ _
      have h2 : nd :: ((tsplit less getter (TTree.node l v r) (getter nd)).1.inorder ++
          (tsplit less getter (TTree.node l v r) (getter nd)).2.inorder) =
          nd :: (TTree.node l v r).inorder := by rw [hsp]
      rw [inorder_node] at h2
      exact h2 ▸ List.perm_middle
    · by_cases hl : less (getter nd) (getter v) = true
      · simp only [tinsert, hp, if_false, hl, if_true, inorder_node]
        exact ihl.append_right (v :: r.inorder)
      · simp only [tinsert, hp, if_false, hl, Bool.false_eq_true, inorder_node]
        have h1 := (ihr.cons v).append_left l.inorder
        have h3 := (List.Perm.swap nd v r.inorder).append_left l.inorder
        have h5 : (l.inorder ++ nd :: v :: r.inorder).Perm
            (nd :: (l.inorder ++ v :: r.inorder)) := List.perm_middle
        exact h1.trans (h3.trans h5)

theorem mem_tinsert {t : TTree} {nd x : Nat} :
    x ∈ (tinsert less getter prio t nd).inorder ↔
      x = nd ∨ x ∈ t.inorder := by
  have hp : (tinsert less getter prio t nd).inorder.Perm
      (nd :: t.inorder) := tinsert_inorder_perm t nd
  rw [hp.mem_iff]
  simp

theorem tremove_not_mem {t : TTree} {id : Nat} (h : id ∉ t.inorder) :
    tremove prio t id = t := by
  induction t with
  | nil => simp [tremove]
  | node l v r ihl ihr =>
    simp only [TTree.inorder, List.mem_append, List.mem_cons] at h
    push_neg at h
    simp only [tremove, (Ne.symm h.2.1), if_false]
    rw [ihl h.1, ihr h.2.2]

theorem tremove_node_self (l : TTree) (v : Nat) (r : TTree) :
    tremove prio (TTree.node l v r) v = tmerge prio l r := by
  simp [tremove]

theorem tremove_node_ne {v id : Nat} (l r : TTree) (h : v ≠ id) :
    tremove prio (TTree.node l v r) id =
      TTree.node (tremove prio l id) v (tremove prio r id) := by
  simp [tremove, h]

theorem tremove_inorder {t : TTree} {id : Nat} (h : t.inorder.Nodup) :
    (tremove prio t id).inorder = t.inorder.erase id := by
  induction t with
  | nil => simp [tremove, TTree.inorder]
  | node l v r ihl ihr =>
    rw [inorder_node] at h
    have hnl : l.inorder.Nodup := (List.nodup_append.1 h).1
    have hnr : r.inorder.Nodup := ((List.nodup_append.1 h).2.1).of_cons
    by_cases hv : v = id
    · subst hv
      have hvl : v ∉ l.inorder := by
        intro hmem
        exact (List.nodup_append.1 h).2.2 hmem (List.mem_cons_self v _)
      rw [tremove_node_self, inorder_node, tmerge_inorder,
        List.erase_append_right _ hvl, List.erase_cons_head]
    · rw [tremove_node_ne _ _ hv, inorder_node, inorder_node]
      by_cases hml : id ∈ l.inorder
      · have hmr : id ∉ r.inorder := by
          intro hmem
          exact (List.nodup_append.1 h).2.2 hml (List.mem_cons_of_mem _ hmem)
        rw [ihl hnl, tremove_not_mem hmr, List.erase_append_left _ hml]
      · rw [tremove_not_mem hml, ihr hnr, List.erase_append_right _ hml]
        have hne : ¬ v = id := hv
        simp [List.erase_cons, hne]

theorem isBST_node_iff {l : TTree} {v : Nat} {r : TTree} :
    IsBST less getter (TTree.node l v r) ↔
      (∀ x ∈ l.inorder, less (getter x) (getter v) = true) ∧
      (∀ x ∈ r.inorder, less (getter v) (getter x) = true) ∧
      IsBST less getter l ∧ IsBST less getter r := Iff.rfl

theorem keysOf_node (l : TTree) (v : Nat) (r : TTree) :
    keysOf getter (TTree.node l v r) =
      keysOf getter l ++ getter v :: keysOf getter r := by
  simp [keysOf, inorder_node]

theorem bst_sorted (h : SLO less) {t : TTree} (hb : IsBST less getter t) :
    (keysOf getter t).Pairwise (fun a b => less a b = true) := by
  induction t with
  | nil => simp [keysOf, TTree.inorder]
  | node l v r ihl ihr =>
    obtain ⟨h1, h2, h3, h4⟩ := isBST_node_iff.1 hb
    rw [keysOf_node, List.pairwise_append]
    refine ⟨ihl h3, ?_, ?_⟩
    · rw [List.pairwise_cons]
      refine ⟨?_, ihr h4⟩
      intro b hb2
      obtain ⟨x, hx, rfl⟩ := List.mem_map.1 hb2
      exact h2 x hx
    · intro a ha b hb2
      obtain ⟨x, hx, rfl⟩ := List.mem_map.1 ha
      rcases List.mem_cons.1 hb2 with rfl | hb3
      · exact h1 x hx
      · obtain ⟨y, hy, rfl⟩ := List.mem_map.1 hb3
        exact h.lt_trans (h1 x hx) (h2 y hy)

theorem sorted_bst {t : TTree}
    (hs : (keysOf getter t).Pairwise (fun a b => less a b = true)) :
    IsBST less getter t := by
  induction t with
  | nil => trivial
  | node l v r ihl ihr =>
    rw [keysOf_node, List.pairwise_append, List.pairwise_cons] at hs
    obtain ⟨hsl, ⟨hsv, hsr⟩, hcross⟩ := hs
    refine isBST_node_iff.2 ⟨?_, ?_, ihl hsl, ihr hsr⟩
    · intro x hx
      exact hcross (getter x) (List.mem_map_of_mem getter hx)
        (getter v) (List.mem_cons_self _ _)
    · intro x hx
      exact hsv (getter x) (List.mem_map_of_mem getter hx)

theorem tsplit_bst (h : SLO less) {t : TTree} {key : K}
    (hb : IsBST less getter t) :
    IsBST less getter (tsplit less getter t key).1 ∧
    IsBST less getter (tsplit less getter t key).2 ∧
    (∀ x ∈ (tsplit less getter t key).1.inorder,
      less (getter x) key = true) ∧
    (∀ x ∈ (tsplit less getter t key).2.inorder,
      less (getter x) key = false) := by
  induction t with
  | nil => simp [tsplit, TTree.inorder]; trivial
  | node l v r ihl ihr =>
    obtain ⟨h1, h2, h3, h4⟩ := isBST_node_iff.1 hb
    by_cases hc : less (getter v) key = true
    · obtain ⟨ib1, ib2, im1, im2⟩ := ihr h4
      have hs : (tsplit less getter r key).1.inorder ++
          (tsplit less getter r key).2.inorder = r.inorder :=
        tsplit_inorder _ _
      simp only [tsplit, hc, if_true]
      refine ⟨?_, ib2, ?_, im2⟩
      · refine isBST_node_iff.2 ⟨h1, ?_, h3, ib1⟩
        intro x hx
        exact h2 x (by rw [← hs]; exact List.mem_append_left _ hx)
      · intro x hx
        rw [inorder_node] at hx
        rcases List.mem_append.1 hx with hx | hx
        · exact h.lt_trans (h1 x hx) hc
        · rcases List.mem_cons.1 hx with rfl | hx
          · exact hc
          · exact im1 x hx
    · obtain ⟨ib1, ib2, im1, im2⟩ := ihl h3
      have hs : (tsplit less getter l key).1.inorder ++
          (tsplit less getter l key).2.inorder = l.inorder :=
        tsplit_inorder _ _
      have hcf : less (getter v) key = false := by
        cases hx : less (getter v) key
        · rfl
        · exact absurd hx hc
      simp only [tsplit, hc, Bool.false_eq_true, if_false]
      refine ⟨ib1, ?_, im1, ?_⟩
      · refine isBST_node_iff.2 ⟨?_, h2, ib2, h4⟩
        intro x hx
        exact h1 x (by rw [← hs]; exact List.mem_append_right _ hx)
      · intro x hx
        rw [inorder_node] at hx
        rcases List.mem_append.1 hx with hx | hx
        · exact im2 x hx
        · rcases List.mem_cons.1 hx with rfl | hx
          · exact hcf
          · cases hxk : less (getter x) key
            · rfl
            · have := h.lt_trans (h2 x hx) hxk
              rw [this] at hcf
              exact absurd hcf (by simp)

theorem tinsert_bst (h : SLO less) {t : TTree} {nd : Nat}
    (hb : IsBST less getter t)
    (hne : ∀ x ∈ t.inorder, getter x ≠ getter nd) :
    IsBST less getter (tinsert less getter prio t nd) := by
  induction t with
  | nil => simp [tinsert]; exact ⟨by simp [TTree.inorder], by simp [TTree.inorder],
      trivial, trivial⟩
  | node l v r ihl ihr =>
    obtain ⟨h1, h2, h3, h4⟩ := isBST_node_iff.1 hb
    by_cases hp : prio nd > prio v
    · simp only [tinsert, hp, if_true]
      have hsb : IsBST less getter
            (tsplit less getter (TTree.node l v r) (getter nd)).1 ∧
          IsBST less getter
            (tsplit less getter (TTree.node l v r) (getter nd)).2 ∧
          (∀ x ∈ (tsplit less getter (TTree.node l v r)
              (getter nd)).1.inorder,
            less (getter x) (getter nd) = true) ∧
          (∀ x ∈ (tsplit less getter (TTree.node l v r)
              (getter nd)).2.inorder,
            less (getter x) (getter nd) = false) := tsplit_bst h hb
      obtain ⟨ib1, ib2, im1, im2⟩ := hsb
      refine isBST_node_iff.2 ⟨?_, ?_, ib1, ib2⟩
      · intro x hx
        exact im1 x hx
      · intro x hx
        have hmem : x ∈ (TTree.node l v r).inorder := by
          have hsp2 : (tsplit less getter (TTree.node l v r)
              (getter nd)).1.inorder ++
              (tsplit less getter (TTree.node l v r)
                (getter nd)).2.inorder = (TTree.node l v r).inorder :=
            tsplit_inorder _ _
          rw [← hsp2]
          exact List.mem_append_right _ hx
        rcases h.total (getter nd) (getter x) with he | hl2 | hl2
        · exact absurd he.symm (hne x hmem)
        · exact hl2
        · rw [im2 x hx] at hl2
          exact absurd hl2 Bool.false_ne_true
    · by_cases hl : less (getter nd) (getter v) = true
      · simp only [tinsert, hp, if_false, hl, if_true]
        refine isBST_node_iff.2 ⟨?_, h2, ?_, h4⟩
        · intro x hx
          rcases mem_tinsert.1 hx with rfl | hx
          · exact hl
          · exact h1 x hx
        · refine ihl h3 ?_
          intro x hx
          exact hne x (by rw [inorder_node]; exact List.mem_append_left _ hx)
      · have hvnd : less (getter v) (getter nd) = true := by
          have hvm : v ∈ (TTree.node l v r).inorder := by
            rw [inorder_node]
            exact List.mem_append_right _ (List.mem_cons_self _ _)
          rcases h.total (getter v) (getter nd) with he | hl2 | hl2
          · exact absurd he (hne v hvm)
          · exact hl2
          · exact absurd hl2 (by simpa using hl)
        simp only [tinsert, hp, if_false, hl, Bool.false_eq_true]
        refine isBST_node_iff.2 ⟨h1, ?_, h3, ?_⟩
        · intro x hx
          rcases mem_tinsert.1 hx with rfl | hx
          · exact hvnd
          · exact h2 x hx
        · refine ihr h4 ?_
          intro x hx
          refine hne x ?_
          rw [inorder_node]
          exact List.mem_append_right _ (List.mem_cons_of_mem _ hx)

theorem mem_tremove_sub {t : TTree} {id x : Nat} :
    x ∈ (tremove prio t id).inorder → x ∈ t.inorder := by
  induction t with
  | nil => simp [tremove]
  | node l v r ihl ihr =>
    by_cases hv : v = id
    · subst hv
      rw [tremove_node_self, tmerge_inorder, inorder_node]
      intro hx
      rcases List.mem_append.1 hx with hx | hx
      · exact List.mem_append.2 (Or.inl hx)
      · exact List.mem_append.2 (Or.inr (List.mem_cons_of_mem _ hx))
    · rw [tremove_node_ne _ _ hv, inorder_node, inorder_node]
      intro hx
      rcases List.mem_append.1 hx with hx | hx
      · exact List.mem_append.2 (Or.inl (ihl hx))
      · rcases List.mem_cons.1 hx with hx | hx
        · exact List.mem_append.2 (Or.inr (List.mem_cons.2 (Or.inl hx)))
        · exact List.mem_append.2 (Or.inr (List.mem_cons_of_mem _ (ihr hx)))

theorem isHeap_node_iff {l : TTree} {v : Nat} {r : TTree} :
    IsHeap prio (TTree.node l v r) ↔
      rootPrioLe prio (prio v) l ∧ rootPrioLe prio (prio v) r ∧
      IsHeap prio l ∧ IsHeap prio r := Iff.rfl

theorem isHeapA_node_iff {l : TTree} {v : Nat} {r : TTree} :
    IsHeapA prio (TTree.node l v r) ↔
      AllPrioLe prio (prio v) l ∧ AllPrioLe prio (prio v) r ∧
      IsHeapA prio l ∧ IsHeapA prio r := Iff.rfl

theorem heapA_allLe {t : TTree} {p : Int} (h : IsHeapA prio t)
    (hr : rootPrioLe prio p t) : AllPrioLe prio p t := by
  cases t with
  | nil => intro x hx; simp [TTree.inorder] at hx
  | node l v r =>
    obtain ⟨hl, hr2, _, _⟩ := isHeapA_node_iff.1 h
    have hvp : prio v ≤ p := hr
    intro x hx
    rw [inorder_node] at hx
    rcases List.mem_append.1 hx with hx | hx
    · exact le_trans (hl x hx) hvp
    · rcases List.mem_cons.1 hx with rfl | hx
      · exact hvp
      · exact le_trans (hr2 x hx) hvp

theorem allLe_of_root_mem {t : TTree} {p : Int}
    (h : AllPrioLe prio p t) : rootPrioLe prio p t := by
  cases t with
  | nil => trivial
  | node l v r =>
    refine h v ?_
    rw [inorder_node]
    exact List.mem_append_right _ (List.mem_cons_self _ _)

theorem heap_iff_heapA {t : TTree} :
    IsHeap prio t ↔ IsHeapA prio t := by
  induction t with
  | nil => exact Iff.rfl
  | node l v r ihl ihr =>
    rw [isHeap_node_iff, isHeapA_node_iff, ihl, ihr]
    constructor
    · rintro ⟨h1, h2, h3, h4⟩
      exact ⟨heapA_allLe h3 h1, heapA_allLe h4 h2, h3, h4⟩
    · rintro ⟨h1, h2, h3, h4⟩
      exact ⟨allLe_of_root_mem h1, allLe_of_root_mem h2, h3, h4⟩

theorem allLe_sub {t t2 : TTree} {p : Int} (h : AllPrioLe prio p t)
    (hsub : ∀ x ∈ t2.inorder, x ∈ t.inorder) : AllPrioLe prio p t2 :=
  fun x hx => h x (hsub x hx)

theorem allLe_tmerge {t1 t2 : TTree} {p : Int} (h1 : AllPrioLe prio p t1)
    (h2 : AllPrioLe prio p t2) : AllPrioLe prio p (tmerge prio t1 t2) := by
  intro x hx
  rw [tmerge_inorder] at hx
  rcases List.mem_append.1 hx with hx | hx
  · exact h1 x hx
  · exact h2 x hx

theorem tmerge_heapA :
    ∀ t1 t2 : TTree, IsHeapA prio t1 → IsHeapA prio t2 →
      IsHeapA prio (tmerge prio t1 t2)
  | t1, .nil, h1, _ => by cases t1 <;> simpa [tmerge]
  | .nil, .node l2 v2 r2, _, h2 => by simpa [tmerge]
  | .node l1 v1 r1, .node l2 v2 r2, h1, h2 => by
    obtain ⟨ha1, ha2, ha3, ha4⟩ := isHeapA_node_iff.1 h1
    obtain ⟨hb1, hb2, hb3, hb4⟩ := isHeapA_node_iff.1 h2
    by_cases hp : prio v1 > prio v2
    · have ih := tmerge_heapA r1 (.node l2 v2 r2) ha4 h2
      simp only [tmerge, hp, if_true]
      refine isHeapA_node_iff.2 ⟨ha1, ?_, ha3, ih⟩
      refine allLe_sub (t := tmerge prio r1 (.node l2 v2 r2)) ?_ (fun x hx => hx)
      refine allLe_tmerge ha2 ?_
      have hall2 : AllPrioLe prio (prio v2) (TTree.node l2 v2 r2) :=
        heapA_allLe h2 (le_refl _)
      exact fun x hx => le_trans (hall2 x hx) (le_of_lt hp)
    · have ih := tmerge_heapA (.node l1 v1 r1) l2 h1 hb3
      simp only [tmerge, hp, if_false]
      refine isHeapA_node_iff.2 ⟨?_, hb2, ih, hb4⟩
      refine allLe_tmerge ?_ hb1
      have hall1 : AllPrioLe prio (prio v1) (TTree.node l1 v1 r1) :=
        heapA_allLe h1 (le_refl _)
      have hv12 : prio v1 ≤ prio v2 := le_of_not_lt hp
      exact fun x hx => le_trans (hall1 x hx) hv12
termination_by t1 t2 => t1.numNodes + t2.numNodes
decreasing_by
  all_goals simp [TTree.numNodes]
  all_goals omega

theorem tsplit_heapA {less : K → K → Bool} {getter : Nat → K} {t : TTree}
    {key : K} (h : IsHeapA prio t) :
    IsHeapA prio (tsplit less getter t key).1 ∧
    IsHeapA prio (tsplit less getter t key).2 := by
  induction t with
  | nil => simp [tsplit]; trivial
  | node l v r ihl ihr =>
    obtain ⟨h1, h2, h3, h4⟩ := isHeapA_node_iff.1 h
    by_cases hc : less (getter v) key = true
    · obtain ⟨ih1, ih2⟩ := ihr h4
      have hs : (tsplit less getter r key).1.inorder ++
          (tsplit less getter r key).2.inorder = r.inorder :=
        tsplit_inorder _ _
      simp only [tsplit, hc, if_true]
      refine ⟨isHeapA_node_iff.2 ⟨h1, ?_, h3, ih1⟩, ih2⟩
      refine allLe_sub h2 ?_
      intro x hx
      rw [← hs]
      exact List.mem_append_left _ hx
    · obtain ⟨ih1, ih2⟩ := ihl h3
      have hs : (tsplit less getter l key).1.inorder ++
          (tsplit less getter l key).2.inorder = l.inorder :=
        tsplit_inorder _ _
      simp only [tsplit, hc, Bool.false_eq_true, if_false]
      refine ⟨ih1, isHeapA_node_iff.2 ⟨?_, h2, ih2, h4⟩⟩
      refine allLe_sub h1 ?_
      intro x hx
      rw [← hs]
      exact List.mem_append_right _ hx

theorem tinsert_heapA {less : K → K → Bool} {getter : Nat → K} {t : TTree}
    {nd : Nat} (h : IsHeapA prio t) :
    IsHeapA prio (tinsert less getter prio t nd) := by
  induction t with
  | nil =>
    refine isHeapA_node_iff.2 ⟨?_, ?_, trivial, trivial⟩ <;>
      (intro x hx; simp [TTree.inorder] at hx)
  | node l v r ihl ihr =>
    obtain ⟨h1, h2, h3, h4⟩ := isHeapA_node_iff.1 h
    by_cases hp : prio nd > prio v
    · simp only [tinsert, hp, if_true]
      have hsh : IsHeapA prio
            (tsplit less getter (TTree.node l v r) (getter nd)).1 ∧
          IsHeapA prio
            (tsplit less getter (TTree.node l v r) (getter nd)).2 :=
        tsplit_heapA h
      obtain ⟨is1, is2⟩ := hsh
      have hall : AllPrioLe prio (prio v) (TTree.node l v r) :=
        heapA_allLe h (le_refl _)
      have hs : (tsplit less getter (TTree.node l v r)
            (getter nd)).1.inorder ++
          (tsplit less getter (TTree.node l v r) (getter nd)).2.inorder =
          (TTree.node l v r).inorder := tsplit_inorder _ _
      refine isHeapA_node_iff.2 ⟨?_, ?_, is1, is2⟩
      · refine allLe_sub (t := TTree.node l v r) ?_ ?_
        · exact fun x hx => le_trans (hall x hx) (le_of_lt hp)
        · intro x hx; rw [← hs]; exact List.mem_append_left _ hx
      · refine allLe_sub (t := TTree.node l v r) ?_ ?_
        · exact fun x hx => le_trans (hall x hx) (le_of_lt hp)
        · intro x hx; rw [← hs]; exact List.mem_append_right _ hx
    · have hnd : prio nd ≤ prio v := le_of_not_lt hp
      by_cases hl : less (getter nd) (getter v) = true
      · simp only [tinsert, hp, if_false, hl, if_true]
        refine isHeapA_node_iff.2 ⟨?_, h2, ihl h3, h4⟩
        intro x hx
        rcases mem_tinsert.1 hx with rfl | hx
        · exact hnd
        · exact h1 x hx
      · simp only [tinsert, hp, if_false, hl, Bool.false_eq_true]
        refine isHeapA_node_iff.2 ⟨h1, ?_, h3, ihr h4⟩
        intro x hx
        rcases mem_tinsert.1 hx with rfl | hx
        · exact hnd
        · exact h2 x hx

theorem tremove_heapA {t : TTree} {id : Nat} (h : IsHeapA prio t) :
    IsHeapA prio (tremove prio t id) := by
  induction t with
  | nil => simpa [tremove]
  | node l v r ihl ihr =>
    obtain ⟨h1, h2, h3, h4⟩ := isHeapA_node_iff.1 h
    by_cases hv : v = id
    · subst hv
      rw [tremove_node_self]
      exact tmerge_heapA l r h3 h4
    · rw [tremove_node_ne _ _ hv]
      refine isHeapA_node_iff.2 ⟨?_, ?_, ihl h3, ihr h4⟩
      · exact allLe_sub h1 (fun x hx => mem_tremove_sub hx)
      · exact allLe_sub h2 (fun x hx => mem_tremove_sub hx)

theorem tfind_some {t : TTree} {k : K} {id : Nat}
    (h : tfind less getter t k = some id) :
    id ∈ t.inorder ∧ less (getter id) k = false ∧
      less k (getter id) = false := by
  induction t with
  | nil => simp [tfind] at h
  | node l v r ihl ihr =>
    by_cases h1 : less (getter v) k = true
    · simp only [tfind, h1, if_true] at h
      obtain ⟨hm, h2, h3⟩ := ihr h
      refine ⟨?_, h2, h3⟩
      rw [inorder_node]
      exact List.mem_append_right _ (List.mem_cons_of_mem _ hm)
    · by_cases h2 : less k (getter v) = true
      · simp only [tfind, h1, h2, if_true, Bool.false_eq_true, if_false] at h
        obtain ⟨hm, h3, h4⟩ := ihl h
        refine ⟨?_, h3, h4⟩
        rw [inorder_node]
        exact List.mem_append_left _ hm
      · simp only [tfind, h1, h2, Bool.false_eq_true, if_false] at h
        obtain rfl := Option.some_injective _ h
        refine ⟨?_, ?_, ?_⟩
        · rw [inorder_node]
          exact List.mem_append_right _ (List.mem_cons_self _ _)
        · cases h3 : less (getter v) k
          · rfl
          · exact absurd h3 h1
        · cases h3 : less k (getter v)
          · rfl
          · exact absurd h3 h2

theorem tfind_eq_key (h : SLO less) {t : TTree} {k : K} {id : Nat}
    (hf : tfind less getter t k = some id) : getter id = k := by
  obtain ⟨_, h1, h2⟩ := tfind_some hf
  exact slo_eq_of_not_lt h h1 h2

theorem tfind_of_mem (h : SLO less) {t : TTree} {k : K} {id : Nat}
    (hb : IsBST less getter t) (hm : id ∈ t.inorder) (hk : getter id = k) :
    tfind less getter t k = some id := by
  induction t with
  | nil => simp [TTree.inorder] at hm
  | node l v r ihl ihr =>
    obtain ⟨h1, h2, h3, h4⟩ := isBST_node_iff.1 hb
    rw [inorder_node] at hm
    rcases List.mem_append.1 hm with hm | hm
    · have hkv : less k (getter v) = true := hk ▸ h1 id hm
      have hvk : less (getter v) k = false := slo_asymm h hkv
      simp only [tfind, hvk, Bool.false_eq_true, if_false, hkv, if_true]
      exact ihl h3 hm
    · rcases List.mem_cons.1 hm with rfl | hm
      · subst hk
        simp [tfind, h.irrefl]
      · have hvk : less (getter v) k = true := hk ▸ h2 id hm
        simp only [tfind, hvk, if_true]
        exact ihr h4 hm

theorem tfind_none (h : SLO less) {t : TTree} {k : K}
    (hne : ∀ x ∈ t.inorder, getter x ≠ k) :
    tfind less getter t k = none := by
  cases hf : tfind less getter t k with
  | none => rfl
  | some id =>
    obtain ⟨hm, _, _⟩ := tfind_some hf
    exact absurd (tfind_eq_key h hf) (hne id hm)

theorem lbAux_spec (h : SLO less) {t : TTree} {key : K}
    (hb : IsBST less getter t) (res : Option Nat) :
    lbAux less getter key t res =
      match t.inorder.find? (fun x => !(less (getter x) key)) with
      | some y => some y
      | none => res := by
  induction t generalizing res with
  | nil => simp [lbAux, TTree.inorder]
  | node l v r ihl ihr =>
    obtain ⟨h1, h2, h3, h4⟩ := isBST_node_iff.1 hb
    by_cases hc : less (getter v) key = true
    · have hfl : l.inorder.find? (fun x => !(less (getter x) key)) = none := by
        rw [List.find?_eq_none]
        intro x hx
        have ht := h.lt_trans (h1 x hx) hc
        simp [ht]
      simp only [lbAux, hc, Bool.not_true, Bool.false_eq_true, if_false,
        inorder_node, List.find?_append, hfl, Option.none_orElse,
        List.find?_cons, Bool.not_eq_true']
      rw [ihr h4 res]
      simp [hc]
    · have hcf : less (getter v) key = false := by
        cases hx : less (getter v) key
        · rfl
        · exact absurd hx hc
      simp only [lbAux, hcf, Bool.not_false, if_true, inorder_node,
        List.find?_append, List.find?_cons]
      rw [ihl h3 (some v)]
      cases hfl : l.inorder.find? (fun x => !(less (getter x) key)) with
      | some y => simp
      | none => simp [hcf]

theorem tlowerBound_spec (h : SLO less) {t : TTree} {key : K}
    (hb : IsBST less getter t) :
    tlowerBound less getter t key =
      t.inorder.find? (fun x => !(less (getter x) key)) := by
  rw [tlowerBound, lbAux_spec h hb]
  cases t.inorder.find? (fun x => !(less (getter x) key)) <;> rfl

theorem ubAux_spec (h : SLO less) {t : TTree} {key : K}
    (hb : IsBST less getter t) (res : Option Nat) :
    ubAux less getter key t res =
      match t.inorder.find? (fun x => less key (getter x)) with
      | some y => some y
      | none => res := by
  induction t generalizing res with
  | nil => simp [ubAux, TTree.inorder]
  | node l v r ihl ihr =>
    obtain ⟨h1, h2, h3, h4⟩ := isBST_node_iff.1 hb
    by_cases hc : less key (getter v) = true
    · simp only [ubAux, hc, if_true, inorder_node, List.find?_append,
        List.find?_cons]
      rw [ihl h3 (some v)]
      cases hfl : l.inorder.find? (fun x => less key (getter x)) with
      | some y => simp
      | none => simp [hc]
    · have hcf : less key (getter v) = false := by
        cases hx : less key (getter v)
        · rfl
        · exact absurd hx hc
      have hfl : l.inorder.find? (fun x => less key (getter x)) = none := by
        rw [List.find?_eq_none]
        intro x hx
        simp only [Bool.not_eq_true]
        cases hxk : less key (getter x)
        · rfl
        · have := h.lt_trans hxk (h1 x hx)
          rw [this] at hcf
          exact absurd hcf (by simp)
      simp only [ubAux, hc, Bool.false_eq_true, if_false, inorder_node,
        List.find?_append, hfl, Option.none_orElse, List.find?_cons, hcf]
      exact ihr h4 res

theorem tupperBound_spec (h : SLO less) {t : TTree} {key : K}
    (hb : IsBST less getter t) :
    tupperBound less getter t key =
      t.inorder.find? (fun x => less key (getter x)) := by
  rw [tupperBound, ubAux_spec h hb]
  cases t.inorder.find? (fun x => less key (getter x)) <;> rfl

theorem inorder_node_ne_nil (l : TTree) (v : Nat) (r : TTree) :
    (TTree.node l v r).inorder ≠ [] := by
  rw [inorder_node]
  simp

theorem tfirst_eq_head : ∀ t : TTree, tfirst t = t.inorder.head?
  | .nil => rfl
  | .node .nil v r => by simp [tfirst, inorder_node, inorder_nil]
  | .node (.node a b c) v r => by
    have ih := tfirst_eq_head (.node a b c)
    rw [show tfirst (TTree.node (TTree.node a b c) v r) =
      tfirst (TTree.node a b c) from rfl, ih, inorder_node, inorder_node]
    cases hx : (a.inorder ++ b :: c.inorder) with
    | nil => simp at hx
    | cons y ys => rw [inorder_node, hx]; simp

theorem succAux_not_mem {t : TTree} {x : Nat} (h : x ∉ t.inorder) :
    ∀ inh, succAux x t inh = none := by
  induction t with
  | nil => intro inh; rfl
  | node l v r ihl ihr =>
    intro inh
    rw [inorder_node] at h
    simp only [List.mem_append, List.mem_cons] at h
    push_neg at h
    obtain ⟨hl, hv, hr⟩ := h
    simp only [succAux, Ne.symm hv, if_false, ihl hl, ihr hr]

theorem afterIn_append_not_mem {l1 l2 : List Nat} {x : Nat}
    (h : x ∉ l1) : afterIn (l1 ++ l2) x = afterIn l2 x := by
  induction l1 with
  | nil => rfl
  | cons a rest ih =>
    simp only [List.mem_cons] at h
    push_neg at h
    simp only [List.cons_append, afterIn, Ne.symm h.1, if_false]
    exact ih h.2

theorem afterIn_append_mem {l1 l2 : List Nat} {x : Nat} (h : x ∈ l1) :
    afterIn (l1 ++ l2) x =
      match afterIn l1 x with
      | some y => some y
      | none => l2.head? := by
  induction l1 with
  | nil => simp at h
  | cons a rest ih =>
    by_cases ha : a = x
    · subst ha
      simp only [List.cons_append, afterIn, if_pos rfl]
      cases rest with
      | nil => simp
      | cons b bs => simp
    · have hx : x ∈ rest := by
        rcases List.mem_cons.1 h with rfl | hx
        · exact absurd rfl ha
        · exact hx
      simp only [List.cons_append, afterIn, ha, if_false]
      exact ih hx

theorem succAux_spec {t : TTree} {x : Nat} (hn : t.inorder.Nodup)
    (hm : x ∈ t.inorder) :
    ∀ inh, succAux x t inh =
      match afterIn t.inorder x with
      | some y => some y
      | none => inh := by
  induction t with
  | nil => simp [TTree.inorder] at hm
  | node l v r ihl ihr =>
    intro inh
    rw [inorder_node] at hn hm ⊢
    have hnl : l.inorder.Nodup := (List.nodup_append.1 hn).1
    have hnr : r.inorder.Nodup := ((List.nodup_append.1 hn).2.1).of_cons
    by_cases hv : v = x
    · subst hv
      have hvl : v ∉ l.inorder := by
        intro hmem
        exact (List.nodup_append.1 hn).2.2 hmem (List.mem_cons_self v _)
      rw [afterIn_append_not_mem hvl]
      simp only [succAux, if_pos rfl, afterIn, if_pos rfl, tfirst_eq_head]
      cases r.inorder.head? <;> rfl
    · simp only [succAux, hv, if_false]
      rcases List.mem_append.1 hm with hml | hmr
      · have := ihl hnl hml (some v)
        rw [this, afterIn_append_mem hml]
        cases hfi : afterIn l.inorder x with
        | some y => rfl
        | none => simp [afterIn, Ne.symm hv]
      · rcases List.mem_cons.1 hmr with rfl | hmr
        · exact absurd rfl (Ne.symm hv)
        · have hxl : x ∉ l.inorder := by
            intro hmem
            exact (List.nodup_append.1 hn).2.2 hmem
              (List.mem_cons_of_mem _ hmr)
          rw [succAux_not_mem hxl (some v), afterIn_append_not_mem hxl]
          simp only [afterIn, hv, if_false]
          exact ihr hnr hmr inh

theorem tsucc_spec {t : TTree} {x : Nat} (hn : t.inorder.Nodup)
    (hm : x ∈ t.inorder) : tsucc t x = afterIn t.inorder x := by
  rw [tsucc, succAux_spec hn hm none]
  cases afterIn t.inorder x <;> rfl

theorem isBST_congr {g1 g2 : Nat → K} {t : TTree}
    (hg : ∀ x ∈ t.inorder, g1 x = g2 x) (hb : IsBST less g1 t) :
    IsBST less g2 t := by
  induction t with
  | nil => trivial
  | node l v r ihl ihr =>
    obtain ⟨h1, h2, h3, h4⟩ := isBST_node_iff.1 hb
    have hmv : v ∈ (TTree.node l v r).inorder := by
      rw [inorder_node]
      exact List.mem_append_right _ (List.mem_cons_self _ _)
    have hml : ∀ x ∈ l.inorder, x ∈ (TTree.node l v r).inorder := by
      intro x hx
      rw [inorder_node]
      exact List.mem_append_left _ hx
    have hmr : ∀ x ∈ r.inorder, x ∈ (TTree.node l v r).inorder := by
      intro x hx
      rw [inorder_node]
      exact List.mem_append_right _ (List.mem_cons_of_mem _ hx)
    refine isBST_node_iff.2 ⟨?_, ?_, ihl (fun x hx => hg x (hml x hx)) h3,
      ihr (fun x hx => hg x (hmr x hx)) h4⟩
    · intro x hx
      rw [← hg x (hml x hx), ← hg v hmv]
      exact h1 x hx
    · intro x hx
      rw [← hg x (hmr x hx), ← hg v hmv]
      exact h2 x hx

theorem isHeapA_congr {p1 p2 : Nat → Int} {t : TTree}
    (hp : ∀ x ∈ t.inorder, p1 x = p2 x) (h : IsHeapA p1 t) :
    IsHeapA p2 t := by
  induction t with
  | nil => trivial
  | node l v r ihl ihr =>
    obtain ⟨h1, h2, h3, h4⟩ := isHeapA_node_iff.1 h
    have hmv : v ∈ (TTree.node l v r).inorder := by
      rw [inorder_node]
      exact List.mem_append_right _ (List.mem_cons_self _ _)
    have hml : ∀ x ∈ l.inorder, x ∈ (TTree.node l v r).inorder := by
      intro x hx
      rw [inorder_node]
      exact List.mem_append_left _ hx
    have hmr : ∀ x ∈ r.inorder, x ∈ (TTree.node l v r).inorder := by
      intro x hx
      rw [inorder_node]
      exact List.mem_append_right _ (List.mem_cons_of_mem _ hx)
    refine isHeapA_node_iff.2 ⟨?_, ?_, ihl (fun x hx => hp x (hml x hx)) h3,
      ihr (fun x hx => hp x (hmr x hx)) h4⟩
    · intro x hx
      rw [← hp x (hml x hx), ← hp v hmv]
      exact h1 x hx
    · intro x hx
      rw [← hp x (hmr x hx), ← hp v hmv]
      exact h2 x hx

theorem pairwise_perm_eq {α : Type} {rel : α → α → Prop}
    (hasymm : ∀ a b, rel a b → rel b a → False) :
    ∀ {l1 l2 : List α}, l1.Perm l2 → l1.Pairwise rel → l2.Pairwise rel →
      l1 = l2
  | [], l2, hp, _, _ => (hp.nil_eq).symm ▸ rfl
  | a :: t1, [], hp, _, _ => absurd hp.symm.nil_eq (by simp)
  | a :: t1, b :: t2, hp, hp1, hp2 => by
    by_cases hab : a = b
    · subst hab
      have ht := hp.cons_inv
      rw [pairwise_perm_eq hasymm ht hp1.of_cons hp2.of_cons]
    · have hbt1 : b ∈ t1 := by
        have : b ∈ a :: t1 := hp.symm.subset (List.mem_cons_self _ _)
        rcases List.mem_cons.1 this with he | hm
        · exact absurd he.symm hab
        · exact hm
      have hat2 : a ∈ t2 := by
        have : a ∈ b :: t2 := hp.subset (List.mem_cons_self _ _)
        rcases List.mem_cons.1 this with he | hm
        · exact absurd he hab
        · exact hm
      have hr1 : rel a b := (List.pairwise_cons.1 hp1).1 b hbt1
      have hr2 : rel b a := (List.pairwise_cons.1 hp2).1 a hat2
      exact absurd hr2 (fun h => hasymm a b hr1 h)

theorem lookup_cons_self {β : Type} (recs : List (Nat × β)) (j : Nat)
    (rc : β) : ((j, rc) :: recs).lookup j = some rc := by
  simp [List.lookup]

theorem lookup_cons_ne {β : Type} (recs : List (Nat × β)) {i j : Nat}
    (rc : β) (h : i ≠ j) : ((j, rc) :: recs).lookup i = recs.lookup i := by
  have hb : (i == j) = false := by simp [h]
  simp [List.lookup, hb]

theorem lookup_filter_ne {β : Type} (recs : List (Nat × β)) {i d : Nat}
    (h : i ≠ d) :
    (recs.filter (fun p => p.1 ≠ d)).lookup i = recs.lookup i := by
  induction recs with
  | nil => rfl
  | cons p rest ih =>
    obtain ⟨j, rc⟩ := p
    by_cases hj : j = d
    · have hfe : ((j, rc) :: rest).filter (fun p => decide (p.1 ≠ d)) =
        rest.filter (fun p => decide (p.1 ≠ d)) := by
        simp [List.filter_cons, hj]
      have hij : i ≠ j := fun he => h (he.trans hj)
      rw [hfe, ih, lookup_cons_ne rest rc hij]
    · have hfe : ((j, rc) :: rest).filter (fun p => decide (p.1 ≠ d)) =
        (j, rc) :: rest.filter (fun p => decide (p.1 ≠ d)) := by
        simp [List.filter_cons, hj]
      rw [hfe]
      by_cases hij : i = j
      · subst hij
        rw [lookup_cons_self, lookup_cons_self]
      · rw [lookup_cons_ne _ rc hij, lookup_cons_ne _ rc hij]
        exact ih

theorem lookup_mem_fst {β : Type} {recs : List (Nat × β)} {i : Nat}
    (h : i ∈ recs.map Prod.fst) : ∃ rc, recs.lookup i = some rc := by
  induction recs with
  | nil => simp at h
  | cons p rest ih =>
    obtain ⟨j, rc⟩ := p
    by_cases hij : i = j
    · subst hij
      exact ⟨rc, lookup_cons_self rest i rc⟩
    · rw [List.map_cons, List.mem_cons] at h
      rcases h with he | hm
      · exact absurd he hij
      · rw [lookup_cons_ne _ rc hij]
        exact ih hm

end TreapLemmas

/-!
Well-formedness of bimap states and its preservation.
-/

namespace Bimap

section WFLemmas

variable {L R : Type} [Inhabited L] [Inhabited R]
variable {lessL : L → L → Bool} {lessR : R → R → Bool}

theorem mkGetterL_eq_of_lookup {recs1 recs2 : List (Nat × RecLR L R)}
    {i : Nat} (h : recs1.lookup i = recs2.lookup i) :
    mkGetterL recs1 i = mkGetterL recs2 i := by
  simp [mkGetterL, h]

theorem mkGetterR_eq_of_lookup {recs1 recs2 : List (Nat × RecLR L R)}
    {i : Nat} (h : recs1.lookup i = recs2.lookup i) :
    mkGetterR recs1 i = mkGetterR recs2 i := by
  simp [mkGetterR, h]

theorem mkPrioL_eq_of_lookup {recs1 recs2 : List (Nat × RecLR L R)}
    {i : Nat} (h : recs1.lookup i = recs2.lookup i) :
    mkPrioL recs1 i = mkPrioL recs2 i := by
  simp [mkPrioL, h]

theorem mkPrioR_eq_of_lookup {recs1 recs2 : List (Nat × RecLR L R)}
    {i : Nat} (h : recs1.lookup i = recs2.lookup i) :
    mkPrioR recs1 i = mkPrioR recs2 i := by
  simp [mkPrioR, h]

theorem mkGetterL_cons_self (recs : List (Nat × RecLR L R)) (j : Nat)
    (rc : RecLR L R) : mkGetterL ((j, rc) :: recs) j = rc.keyL := by
  simp [mkGetterL, lookup_cons_self]

theorem mkGetterR_cons_self (recs : List (Nat × RecLR L R)) (j : Nat)
    (rc : RecLR L R) : mkGetterR ((j, rc) :: recs) j = rc.keyR := by
  simp [mkGetterR, lookup_cons_self]

theorem WF.nodupR {m : Bimap L R} (wf : WF lessL lessR m) :
    m.treeR.inorder.Nodup := wf.permLR.nodup_iff.2 wf.nodupL

theorem WF.memLR {m : Bimap L R} (wf : WF lessL lessR m) {x : Nat} :
    x ∈ m.treeR.inorder ↔ x ∈ m.treeL.inorder := wf.permLR.mem_iff

theorem WF.mem_lt_nextId {m : Bimap L R} (wf : WF lessL lessR m) {x : Nat}
    (h : x ∈ m.treeL.inorder) : x < m.nextId := by
  have hx : x ∈ m.recs.map Prod.fst := wf.recsKeys.mem_iff.2 h
  obtain ⟨p, hp, he⟩ := List.mem_map.1 hx
  exact he ▸ wf.fresh p hp

theorem wf_empty : WF lessL lessR (empty : Bimap L R) := by
  refine ⟨?_, ?_, ?_, ?_, ?_, ?_, ?_, ?_, ?_⟩ <;>
    simp [empty, TTree.inorder] <;> trivial

theorem wf_insertedState (hL : SLO lessL) (hR : SLO lessR) {m : Bimap L R}
    (wf : WF lessL lessR m) {l : L} {r : R} {pL pR : Int}
    (hcl : containsL lessL m l = false)
    (hcr : containsR lessR m r = false) :
    WF lessL lessR (insertedState lessL lessR m l r pL pR) := by
  have hagL : ∀ x ∈ m.treeL.inorder,
      mkGetterL ((m.nextId, RecLR.mk l r pL pR) :: m.recs) x = m.getterL x := by
    intro x hx
    exact mkGetterL_eq_of_lookup
      (lookup_cons_ne m.recs _ (Nat.ne_of_lt (wf.mem_lt_nextId hx)))
  have hagR : ∀ x ∈ m.treeR.inorder,
      mkGetterR ((m.nextId, RecLR.mk l r pL pR) :: m.recs) x = m.getterR x := by
    intro x hx
    exact mkGetterR_eq_of_lookup
      (lookup_cons_ne m.recs _
        (Nat.ne_of_lt (wf.mem_lt_nextId (wf.memLR.1 hx))))
  have hapL : ∀ x ∈ m.treeL.inorder,
      mkPrioL ((m.nextId, RecLR.mk l r pL pR) :: m.recs) x = m.prioL x := by
    intro x hx
    exact mkPrioL_eq_of_lookup
      (lookup_cons_ne m.recs _ (Nat.ne_of_lt (wf.mem_lt_nextId hx)))
  have hapR : ∀ x ∈ m.treeR.inorder,
      mkPrioR ((m.nextId, RecLR.mk l r pL pR) :: m.recs) x = m.prioR x := by
    intro x hx
    exact mkPrioR_eq_of_lookup
      (lookup_cons_ne m.recs _
        (Nat.ne_of_lt (wf.mem_lt_nextId (wf.memLR.1 hx))))
  have hneqL : ∀ x ∈ m.treeL.inorder,
      mkGetterL ((m.nextId, RecLR.mk l r pL pR) :: m.recs) x ≠
        mkGetterL ((m.nextId, RecLR.mk l r pL pR) :: m.recs) m.nextId := by
    intro x hx heq
    rw [hagL x hx, mkGetterL_cons_self] at heq
    have hf := tfind_of_mem hL wf.bstL hx heq
    rw [containsL, findL, hf] at hcl
    simp at hcl
  have hneqR : ∀ x ∈ m.treeR.inorder,
      mkGetterR ((m.nextId, RecLR.mk l r pL pR) :: m.recs) x ≠
        mkGetterR ((m.nextId, RecLR.mk l r pL pR) :: m.recs) m.nextId := by
    intro x hx heq
    rw [hagR x hx, mkGetterR_cons_self] at heq
    have hf := tfind_of_mem hR wf.bstR hx heq
    rw [containsR, findR, hf] at hcr
    simp at hcr
  have hpL : (tinsert lessL
      (mkGetterL ((m.nextId, RecLR.mk l r pL pR) :: m.recs))
      (mkPrioL ((m.nextId, RecLR.mk l r pL pR) :: m.recs))
      m.treeL m.nextId).inorder.Perm (m.nextId :: m.treeL.inorder) :=
    tinsert_inorder_perm _ _
  have hpR : (tinsert lessR
      (mkGetterR ((m.nextId, RecLR.mk l r pL pR) :: m.recs))
      (mkPrioR ((m.nextId, RecLR.mk l r pL pR) :: m.recs))
      m.treeR m.nextId).inorder.Perm (m.nextId :: m.treeR.inorder) :=
    tinsert_inorder_perm _ _
  have hnotmem : m.nextId ∉ m.treeL.inorder := by
    intro hmem
    exact absurd rfl (Nat.ne_of_lt (wf.mem_lt_nextId hmem))
  refine ⟨?_, ?_, ?_, ?_, ?_, ?_, ?_, ?_, ?_⟩
  · exact hpL.nodup_iff.2 (List.nodup_cons.2 ⟨hnotmem, wf.nodupL⟩)
  · exact hpR.trans ((wf.permLR.cons m.nextId).trans hpL.symm)
  · show ((m.nextId, RecLR.mk l r pL pR) :: m.recs).map Prod.fst |>.Perm _
    rw [List.map_cons]
    exact (wf.recsKeys.cons m.nextId).trans hpL.symm
  · intro p hp
    rcases List.mem_cons.1 hp with rfl | hp
    · exact Nat.lt_succ_self _
    · exact Nat.lt_succ_of_lt (wf.fresh p hp)
  · exact tinsert_bst hL
      (isBST_congr (fun x hx => (hagL x hx).symm) wf.bstL) hneqL
  · exact tinsert_bst hR
      (isBST_congr (fun x hx => (hagR x hx).symm) wf.bstR) hneqR
  · exact heap_iff_heapA.2 (tinsert_heapA
      (isHeapA_congr (fun x hx => (hapL x hx).symm)
        (heap_iff_heapA.1 wf.heapL)))
  · exact heap_iff_heapA.2 (tinsert_heapA
      (isHeapA_congr (fun x hx => (hapR x hx).symm)
        (heap_iff_heapA.1 wf.heapR)))
  · show (insertedState lessL lessR m l r pL pR).size =
      (insertedState lessL lessR m l r pL pR).treeL.inorder.length
    simp only [insertedState]
    rw [hpL.length_eq, List.length_cons, wf.sizeEq]

theorem map_fst_filter_ne {β : Type} (recs : List (Nat × β)) (d : Nat) :
    (recs.filter (fun p => p.1 ≠ d)).map Prod.fst =
      (recs.map Prod.fst).filter (fun x => x ≠ d) := by
  induction recs with
  | nil => rfl
  | cons p rest ih =>
    rw [List.filter_cons, List.map_cons, List.filter_cons]
    by_cases hp : p.1 = d
    · rw [if_neg (by simp [hp]), if_neg (by simp [hp]), ih]
    · rw [if_pos (by simp [hp]), if_pos (by simp [hp]), List.map_cons, ih]

theorem eraseImpl_state {m : Bimap L R} {d : Nat} :
    (eraseImpl m d).1 =
      { recs := m.recs.filter (fun p => p.1 ≠ d)
        nextId := m.nextId
        treeL := tremove m.prioL m.treeL d
        treeR := tremove m.prioR m.treeR d
        size := m.size - 1 } := rfl

theorem eraseImpl_inorderL {m : Bimap L R} {d : Nat}
    (wf : WF lessL lessR m) :
    (eraseImpl m d).1.treeL.inorder = m.treeL.inorder.erase d := by
  rw [eraseImpl_state]
  exact tremove_inorder wf.nodupL

theorem eraseImpl_inorderR {m : Bimap L R} {d : Nat}
    (wf : WF lessL lessR m) :
    (eraseImpl m d).1.treeR.inorder = m.treeR.inorder.erase d := by
  rw [eraseImpl_state]
  exact tremove_inorder wf.nodupR

theorem eraseImpl_getterL_agree {m : Bimap L R} {d x : Nat} (hx : x ≠ d) :
    (eraseImpl m d).1.getterL x = m.getterL x := by
  rw [eraseImpl_state]
  exact mkGetterL_eq_of_lookup (lookup_filter_ne m.recs hx)

theorem eraseImpl_getterR_agree {m : Bimap L R} {d x : Nat} (hx : x ≠ d) :
    (eraseImpl m d).1.getterR x = m.getterR x := by
  rw [eraseImpl_state]
  exact mkGetterR_eq_of_lookup (lookup_filter_ne m.recs hx)

theorem wf_eraseImpl (hL : SLO lessL) (hR : SLO lessR) {m : Bimap L R}
    (wf : WF lessL lessR m) {d : Nat} (hm : d ∈ m.treeL.inorder) :
    WF lessL lessR (eraseImpl m d).1 := by
  have hioL : (eraseImpl m d).1.treeL.inorder = m.treeL.inorder.erase d :=
    eraseImpl_inorderL wf
  have hioR : (eraseImpl m d).1.treeR.inorder = m.treeR.inorder.erase d :=
    eraseImpl_inorderR wf
  have hmemL : ∀ x ∈ (eraseImpl m d).1.treeL.inorder,
      x ≠ d ∧ x ∈ m.treeL.inorder := by
    intro x hx
    rw [hioL] at hx
    exact ⟨(wf.nodupL.mem_erase_iff.1 hx).1,
      (wf.nodupL.mem_erase_iff.1 hx).2⟩
  have hmemR : ∀ x ∈ (eraseImpl m d).1.treeR.inorder,
      x ≠ d ∧ x ∈ m.treeR.inorder := by
    intro x hx
    rw [hioR] at hx
    exact ⟨(wf.nodupR.mem_erase_iff.1 hx).1,
      (wf.nodupR.mem_erase_iff.1 hx).2⟩
  have hsubL : List.Sublist ((eraseImpl m d).1.treeL.inorder)
      m.treeL.inorder := by
    rw [hioL]
    exact List.erase_sublist _ _
  have hsubR : List.Sublist ((eraseImpl m d).1.treeR.inorder)
      m.treeR.inorder := by
    rw [hioR]
    exact List.erase_sublist _ _
  have hbstL : IsBST lessL m.getterL (eraseImpl m d).1.treeL := by
    refine sorted_bst (List.Pairwise.sublist ?_ (bst_sorted hL wf.bstL))
    exact hsubL.map m.getterL
  have hbstR : IsBST lessR m.getterR (eraseImpl m d).1.treeR := by
    refine sorted_bst (List.Pairwise.sublist ?_ (bst_sorted hR wf.bstR))
    exact hsubR.map m.getterR
  have hprioLag : ∀ x ∈ (eraseImpl m d).1.treeL.inorder,
      m.prioL x = (eraseImpl m d).1.prioL x := by
    intro x hx
    rw [eraseImpl_state]
    exact (mkPrioL_eq_of_lookup (lookup_filter_ne m.recs (hmemL x hx).1)).symm
  have hprioRag : ∀ x ∈ (eraseImpl m d).1.treeR.inorder,
      m.prioR x = (eraseImpl m d).1.prioR x := by
    intro x hx
    rw [eraseImpl_state]
    exact (mkPrioR_eq_of_lookup (lookup_filter_ne m.recs (hmemR x hx).1)).symm
  refine ⟨?_, ?_, ?_, ?_, ?_, ?_, ?_, ?_, ?_⟩
  · rw [hioL]
    exact wf.nodupL.erase d
  · rw [hioL, hioR]
    exact wf.permLR.erase d
  · rw [eraseImpl_state]
    show (m.recs.filter (fun p => p.1 ≠ d)).map Prod.fst |>.Perm _
    rw [map_fst_filter_ne]
    have h1 := wf.recsKeys.filter (fun x => x ≠ d)
    have h2 : m.treeL.inorder.filter (fun x => x ≠ d) =
        m.treeL.inorder.erase d := by
      rw [wf.nodupL.erase_eq_filter]
      refine List.filter_congr ?_
      intro x _
      by_cases h : x = d <;> simp [h]
    rw [← hioL] at h2
    exact h2 ▸ h1
  · intro p hp
    rw [eraseImpl_state] at hp
    exact wf.fresh p (List.mem_of_mem_filter hp)
  · exact isBST_congr
      (fun x hx => (eraseImpl_getterL_agree (hmemL x hx).1).symm) hbstL
  · exact isBST_congr
      (fun x hx => (eraseImpl_getterR_agree (hmemR x hx).1).symm) hbstR
  · refine heap_iff_heapA.2 (isHeapA_congr hprioLag ?_)
    exact tremove_heapA (heap_iff_heapA.1 wf.heapL)
  · refine heap_iff_heapA.2 (isHeapA_congr hprioRag ?_)
    exact tremove_heapA (heap_iff_heapA.1 wf.heapR)
  · show m.size - 1 = _
    rw [hioL, List.length_erase_of_mem hm, wf.sizeEq]

theorem wf_insertB (hL : SLO lessL) (hR : SLO lessR) {m : Bimap L R}
    (wf : WF lessL lessR m) (l : L) (r : R) (pL pR : Int) :
    WF lessL lessR (insertB lessL lessR m l r pL pR).1 := by
  by_cases hc : (containsL lessL m l || containsR lessR m r) = true
  · simpa [insertB, hc] using wf
  · have hc2 := hc
    rw [Bool.or_eq_true] at hc2
    push_neg at hc2
    simp only [insertB, hc, if_false]
    exact wf_insertedState hL hR wf
      (Bool.not_eq_true _ ▸ (Bool.eq_false_iff.2 hc2.1))
      (Bool.not_eq_true _ ▸ (Bool.eq_false_iff.2 hc2.2))

theorem afterIn_mem {l : List Nat} {x y : Nat}
    (h : afterIn l x = some y) : y ∈ l := by
  induction l with
  | nil => simp [afterIn] at h
  | cons a rest ih =>
    by_cases ha : a = x
    · rw [afterIn, if_pos ha] at h
      exact List.mem_cons_of_mem _ (List.mem_of_mem_head? h)
    · rw [afterIn, if_neg ha] at h
      exact List.mem_cons_of_mem _ (ih h)

theorem afterIn_ne {l : List Nat} {x y : Nat} (hn : l.Nodup)
    (h : afterIn l x = some y) : y ≠ x := by
  induction l with
  | nil => simp [afterIn] at h
  | cons a rest ih =>
    by_cases ha : a = x
    · subst ha
      rw [afterIn, if_pos rfl] at h
      intro he
      subst he
      exact (List.nodup_cons.1 hn).1 (List.mem_of_mem_head? h)
    · rw [afterIn, if_neg ha] at h
      exact ih (List.nodup_cons.1 hn).2 h

theorem eraseLIt_eq {m : Bimap L R} {d : Nat} :
    eraseLIt m d = ((eraseImpl m d).1, tsucc m.treeL d) := rfl

theorem eraseRIt_eq {m : Bimap L R} {d : Nat} :
    eraseRIt m d = ((eraseImpl m d).1, tsucc m.treeR d) := rfl

theorem wf_eraseLIt (hL : SLO lessL) (hR : SLO lessR) {m : Bimap L R}
    (wf : WF lessL lessR m) {d : Nat} (hm : d ∈ m.treeL.inorder) :
    WF lessL lessR (eraseLIt m d).1 := wf_eraseImpl hL hR wf hm

theorem wf_eraseRIt (hL : SLO lessL) (hR : SLO lessR) {m : Bimap L R}
    (wf : WF lessL lessR m) {d : Nat} (hm : d ∈ m.treeR.inorder) :
    WF lessL lessR (eraseRIt m d).1 :=
  wf_eraseImpl hL hR wf (wf.memLR.1 hm)

theorem wf_eraseLKey (hL : SLO lessL) (hR : SLO lessR) {m : Bimap L R}
    (wf : WF lessL lessR m) (k : L) :
    WF lessL lessR (eraseLKey lessL m k).1 := by
  cases hf : findL lessL m k with
  | none => simpa [eraseLKey, hf] using wf
  | some d =>
    have hm : d ∈ m.treeL.inorder := (tfind_some hf).1
    simpa [eraseLKey, hf] using wf_eraseImpl hL hR wf hm

theorem wf_eraseRKey (hL : SLO lessL) (hR : SLO lessR) {m : Bimap L R}
    (wf : WF lessL lessR m) (k : R) :
    WF lessL lessR (eraseRKey lessR m k).1 := by
  cases hf : findR lessR m k with
  | none => simpa [eraseRKey, hf] using wf
  | some d =>
    have hm : d ∈ m.treeR.inorder := (tfind_some hf).1
    simpa [eraseRKey, hf] using wf_eraseImpl hL hR wf (wf.memLR.1 hm)

theorem wf_eraseLRangeAux (hL : SLO lessL) (hR : SLO lessR) :
    ∀ (fuel : Nat) (m : Bimap L R) (fi la : Option Nat),
      WF lessL lessR m →
      (∀ d, fi = some d → d ∈ m.treeL.inorder) →
      WF lessL lessR (eraseLRangeAux fuel m fi la).1 := by
  intro fuel
  induction fuel with
  | zero => intro m fi la wf _; exact wf
  | succ fuel ih =>
    intro m fi la wf hv
    by_cases hfl : fi = la
    · simpa [eraseLRangeAux, hfl] using wf
    · cases hfi : fi with
      | none => simpa [eraseLRangeAux, hfl, hfi] using wf
      | some d =>
        have hm : d ∈ m.treeL.inorder := hv d hfi
        have wf2 := wf_eraseImpl hL hR wf hm
        have hstep : eraseLRangeAux (fuel + 1) m (some d) la =
            eraseLRangeAux fuel (eraseLIt m d).1 (eraseLIt m d).2 la := by
          simp only [eraseLRangeAux]
          rw [if_neg (hfi ▸ hfl)]
        rw [hstep]
        refine ih (eraseLIt m d).1 (eraseLIt m d).2 la wf2 ?_
        intro y hy
        rw [eraseLIt_eq] at hy
        have hy2 : tsucc m.treeL d = some y := hy
        rw [tsucc_spec wf.nodupL hm] at hy2
        have hym : y ∈ m.treeL.inorder := afterIn_mem hy2
        have hyne : y ≠ d := afterIn_ne wf.nodupL hy2
        rw [eraseLIt_eq]
        show y ∈ (eraseImpl m d).1.treeL.inorder
        rw [eraseImpl_inorderL wf]
        exact (wf.nodupL.mem_erase_iff).2 ⟨hyne, hym⟩

theorem wf_eraseRRangeAux (hL : SLO lessL) (hR : SLO lessR) :
    ∀ (fuel : Nat) (m : Bimap L R) (fi la : Option Nat),
      WF lessL lessR m →
      (∀ d, fi = some d → d ∈ m.treeR.inorder) →
      WF lessL lessR (eraseRRangeAux fuel m fi la).1 := by
  intro fuel
  induction fuel with
  | zero => intro m fi la wf _; exact wf
  | succ fuel ih =>
    intro m fi la wf hv
    by_cases hfl : fi = la
    · simpa [eraseRRangeAux, hfl] using wf
    · cases hfi : fi with
      | none => simpa [eraseRRangeAux, hfl, hfi] using wf
      | some d =>
        have hm : d ∈ m.treeR.inorder := hv d hfi
        have wf2 := wf_eraseImpl hL hR wf (wf.memLR.1 hm)
        have hstep : eraseRRangeAux (fuel + 1) m (some d) la =
            eraseRRangeAux fuel (eraseRIt m d).1 (eraseRIt m d).2 la := by
          simp only [eraseRRangeAux]
          rw [if_neg (hfi ▸ hfl)]
        rw [hstep]
        refine ih (eraseRIt m d).1 (eraseRIt m d).2 la wf2 ?_
        intro y hy
        rw [eraseRIt_eq] at hy
        have hy2 : tsucc m.treeR d = some y := hy
        rw [tsucc_spec wf.nodupR hm] at hy2
        have hym : y ∈ m.treeR.inorder := afterIn_mem hy2
        have hyne : y ≠ d := afterIn_ne wf.nodupR hy2
        rw [eraseRIt_eq]
        show y ∈ (eraseImpl m d).1.treeR.inorder
        rw [eraseImpl_inorderR wf]
        exact (wf.nodupR.mem_erase_iff).2 ⟨hyne, hym⟩

theorem wf_eraseLRange (hL : SLO lessL) (hR : SLO lessR) {m : Bimap L R}
    (wf : WF lessL lessR m) {fi la : Option Nat}
    (hv : ∀ d, fi = some d → d ∈ m.treeL.inorder) :
    WF lessL lessR (eraseLRange m fi la).1 :=
  wf_eraseLRangeAux hL hR _ m fi la wf hv

theorem wf_eraseRRange (hL : SLO lessL) (hR : SLO lessR) {m : Bimap L R}
    (wf : WF lessL lessR m) {fi la : Option Nat}
    (hv : ∀ d, fi = some d → d ∈ m.treeR.inorder) :
    WF lessL lessR (eraseRRange m fi la).1 :=
  wf_eraseRRangeAux hL hR _ m fi la wf hv

theorem wf_atLOrDefault (hL : SLO lessL) (hR : SLO lessR) {m : Bimap L R}
    (wf : WF lessL lessR m) (k : L) (pL pR : Int) :
    WF lessL lessR (atLOrDefault lessL lessR m k pL pR).1 := by
  cases hf : findL lessL m k with
  | some d => simpa [atLOrDefault, hf] using wf
  | none =>
    cases hf2 : findR lessR m (default : R) with
    | some rid =>
      have hm : rid ∈ m.treeR.inorder := (tfind_some hf2).1
      have wf2 := wf_eraseImpl hL hR wf (wf.memLR.1 hm)
      have := wf_insertB hL hR wf2 k (default : R) pL pR
      simp only [atLOrDefault, hf, hf2]
      cases hins : (insertB lessL lessR (eraseImpl m rid).1 k default pL pR).2 <;>
        simpa [hins] using this
    | none =>
      have := wf_insertB hL hR wf k (default : R) pL pR
      simp only [atLOrDefault, hf, hf2]
      cases hins : (insertB lessL lessR m k default pL pR).2 <;>
        simpa [hins] using this

theorem wf_atROrDefault (hL : SLO lessL) (hR : SLO lessR) {m : Bimap L R}
    (wf : WF lessL lessR m) (k : R) (pL pR : Int) :
    WF lessL lessR (atROrDefault lessL lessR m k pL pR).1 := by
  cases hf : findR lessR m k with
  | some d => simpa [atROrDefault, hf] using wf
  | none =>
    cases hf2 : findL lessL m (default : L) with
    | some lid =>
      have hm : lid ∈ m.treeL.inorder := (tfind_some hf2).1
      have wf2 := wf_eraseImpl hL hR wf hm
      have := wf_insertB hL hR wf2 (default : L) k pL pR
      simp only [atROrDefault, hf, hf2]
      cases hins : (insertB lessL lessR (eraseImpl m lid).1 default k pL pR).2 <;>
        simpa [hins] using this
    | none =>
      have := wf_insertB hL hR wf (default : L) k pL pR
      simp only [atROrDefault, hf, hf2]
      cases hins : (insertB lessL lessR m default k pL pR).2 <;>
        simpa [hins] using this

theorem reach_wf (hL : SLO lessL) (hR : SLO lessR) {m : Bimap L R}
    (h : Reachable lessL lessR m) : WF lessL lessR m := by
  induction h with
  | empty => exact wf_empty
  | insert l r pL pR _ ih => exact wf_insertB hL hR ih l r pL pR
  | eraseLIt d _ hm ih => exact wf_eraseLIt hL hR ih hm
  | eraseRIt d _ hm ih => exact wf_eraseRIt hL hR ih hm
  | eraseLKey k _ ih => exact wf_eraseLKey hL hR ih k
  | eraseRKey k _ ih => exact wf_eraseRKey hL hR ih k
  | eraseLRange i j _ hij hj ih =>
    refine wf_eraseLRange hL hR ih ?_
    intro d hd
    exact List.getElem?_mem hd
  | eraseRRange i j _ hij hj ih =>
    refine wf_eraseRRange hL hR ih ?_
    intro d hd
    exact List.getElem?_mem hd
  | atLOrDefault k pL pR _ ih => exact wf_atLOrDefault hL hR ih k pL pR
  | atROrDefault k pL pR _ ih => exact wf_atROrDefault hL hR ih k pL pR

end WFLemmas

end Bimap

/-!
Specification-level lemmas: keys, pairs and operation effects.
-/

theorem slo_intLt : SLO intLt := by
  refine ⟨?_, ?_, ?_⟩
  · intro a; simp [intLt]
  · intro a b c hab hbc
    simp only [intLt, decide_eq_true_eq] at *
    omega
  · intro a b
    simp only [intLt, decide_eq_true_eq]
    omega

theorem numNodes_eq_length (t : TTree) :
    t.numNodes = t.inorder.length := by
  induction t with
  | nil => rfl
  | node l v r ihl ihr =>
    simp [TTree.numNodes, inorder_node, ihl, ihr]
    omega

theorem bst_keys_nodup {K : Type} {less : K → K → Bool} {getter : Nat → K}
    (h : SLO less) {t : TTree} (hb : IsBST less getter t) :
    (keysOf getter t).Nodup := by
  exact (bst_sorted h hb).imp (fun hxy => slo_ne_of_lt h hxy)

namespace Bimap

section SpecLemmas

variable {L R : Type} [Inhabited L] [Inhabited R]
variable {lessL : L → L → Bool} {lessR : R → R → Bool}

theorem wf_getterL_inj (hL : SLO lessL) {m : Bimap L R}
    (wf : WF lessL lessR m) {x y : Nat} (hx : x ∈ m.treeL.inorder)
    (hy : y ∈ m.treeL.inorder) (hxy : m.getterL x = m.getterL y) :
    x = y := by
  have hnd : (m.treeL.inorder.map m.getterL).Nodup :=
    bst_keys_nodup hL wf.bstL
  exact List.inj_on_of_nodup_map hnd hx hy hxy

theorem wf_getterR_inj (hR : SLO lessR) {m : Bimap L R}
    (wf : WF lessL lessR m) {x y : Nat} (hx : x ∈ m.treeR.inorder)
    (hy : y ∈ m.treeR.inorder) (hxy : m.getterR x = m.getterR y) :
    x = y := by
  have hnd : (m.treeR.inorder.map m.getterR).Nodup :=
    bst_keys_nodup hR wf.bstR
  exact List.inj_on_of_nodup_map hnd hx hy hxy

theorem containsL_iff (hL : SLO lessL) {m : Bimap L R}
    (wf : WF lessL lessR m) {k : L} :
    containsL lessL m k = true ↔
      ∃ id ∈ m.treeL.inorder, m.getterL id = k := by
  constructor
  · intro hc
    rw [containsL, Option.isSome_iff_exists] at hc
    obtain ⟨d, hd⟩ := hc
    exact ⟨d, (tfind_some hd).1, tfind_eq_key hL hd⟩
  · rintro ⟨d, hd, hk⟩
    rw [containsL, findL, tfind_of_mem hL wf.bstL hd hk]
    rfl

theorem containsR_iff (hR : SLO lessR) {m : Bimap L R}
    (wf : WF lessL lessR m) {k : R} :
    containsR lessR m k = true ↔
      ∃ id ∈ m.treeR.inorder, m.getterR id = k := by
  constructor
  · intro hc
    rw [containsR, Option.isSome_iff_exists] at hc
    obtain ⟨d, hd⟩ := hc
    exact ⟨d, (tfind_some hd).1, tfind_eq_key hR hd⟩
  · rintro ⟨d, hd, hk⟩
    rw [containsR, findR, tfind_of_mem hR wf.bstR hd hk]
    rfl

theorem pairsL_sorted (hL : SLO lessL) {m : Bimap L R}
    (wf : WF lessL lessR m) :
    m.pairsL.Pairwise (fun p q => lessL p.1 q.1 = true) := by
  rw [pairsL, List.pairwise_map]
  have hs := bst_sorted hL wf.bstL
  rw [keysOf, List.pairwise_map] at hs
  exact hs

theorem pairsL_length {m : Bimap L R} :
    m.pairsL.length = m.treeL.inorder.length := by
  simp [pairsL]

theorem insertedState_getterL_new {m : Bimap L R} {l : L} {r : R}
    {pL pR : Int} :
    (insertedState lessL lessR m l r pL pR).getterL m.nextId = l := by
  simp only [insertedState, getterL]
  exact mkGetterL_cons_self _ _ _

theorem insertedState_getterR_new {m : Bimap L R} {l : L} {r : R}
    {pL pR : Int} :
    (insertedState lessL lessR m l r pL pR).getterR m.nextId = r := by
  simp only [insertedState, getterR]
  exact mkGetterR_cons_self _ _ _

theorem insertedState_getterL_old {m : Bimap L R} {l : L} {r : R}
    {pL pR : Int} {x : Nat} (hx : x ≠ m.nextId) :
    (insertedState lessL lessR m l r pL pR).getterL x = m.getterL x := by
  simp only [insertedState, getterL]
  exact mkGetterL_eq_of_lookup (lookup_cons_ne m.recs _ hx)

theorem insertedState_getterR_old {m : Bimap L R} {l : L} {r : R}
    {pL pR : Int} {x : Nat} (hx : x ≠ m.nextId) :
    (insertedState lessL lessR m l r pL pR).getterR x = m.getterR x := by
  simp only [insertedState, getterR]
  exact mkGetterR_eq_of_lookup (lookup_cons_ne m.recs _ hx)

theorem insertedState_inorderL_perm {m : Bimap L R} {l : L} {r : R}
    {pL pR : Int} :
    (insertedState lessL lessR m l r pL pR).treeL.inorder.Perm
      (m.nextId :: m.treeL.inorder) := by
  simp only [insertedState]
  exact tinsert_inorder_perm _ _

theorem insertedState_inorderR_perm {m : Bimap L R} {l : L} {r : R}
    {pL pR : Int} :
    (insertedState lessL lessR m l r pL pR).treeR.inorder.Perm
      (m.nextId :: m.treeR.inorder) := by
  simp only [insertedState]
  exact tinsert_inorder_perm _ _

theorem insertedState_pairsL_perm {m : Bimap L R} (wf : WF lessL lessR m)
    {l : L} {r : R} {pL pR : Int} :
    (insertedState lessL lessR m l r pL pR).pairsL.Perm
      ((l, r) :: m.pairsL) := by
  have hperm : (insertedState lessL lessR m l r pL pR).treeL.inorder.Perm
      (m.nextId :: m.treeL.inorder) := insertedState_inorderL_perm
  have h1 : (insertedState lessL lessR m l r pL pR).pairsL.Perm
      ((m.nextId :: m.treeL.inorder).map
        (fun id => ((insertedState lessL lessR m l r pL pR).getterL id,
          (insertedState lessL lessR m l r pL pR).getterR id))) := by
    rw [pairsL]
    exact hperm.map _
  refine h1.trans ?_
  rw [List.map_cons, insertedState_getterL_new, insertedState_getterR_new]
  refine List.Perm.cons _ ?_
  have hmap : (m.treeL.inorder).map
      (fun id => ((insertedState lessL lessR m l r pL pR).getterL id,
        (insertedState lessL lessR m l r pL pR).getterR id)) =
      (m.treeL.inorder).map (fun id => (m.getterL id, m.getterR id)) := by
    refine List.map_congr_left ?_
    intro x hx
    have hne : x ≠ m.nextId := Nat.ne_of_lt (wf.mem_lt_nextId hx)
    rw [insertedState_getterL_old hne, insertedState_getterR_old hne]
  rw [hmap, pairsL]

end SpecLemmas

end Bimap

/-!
Claim theorems.
-/

section Claims

open Bimap

/-- Claim C2: for every (well-formed) bimap state and candidate pair
(l, r): if l already exists as a left key or r already exists as a right
key, `insert` performs no mutation (the state is returned unchanged) and
returns `end_left()` (`none`); otherwise it adds exactly the pair (l, r)
to both views (it becomes findable from both sides and the left-view pair
list gains exactly this pair), increments `size()` by one, and returns a
left-view cursor that dereferences to l. -/
theorem c2_insert_all_or_nothing {L R : Type} [Inhabited L] [Inhabited R]
    {lessL : L → L → Bool} {lessR : R → R → Bool}
    (hL : SLO lessL) (hR : SLO lessR) {m : Bimap L R}
    (wf : WF lessL lessR m) (l : L) (r : R) (pL pR : Int) :
    (((∃ id ∈ m.treeL.inorder, m.getterL id = l) ∨
      (∃ id ∈ m.treeR.inorder, m.getterR id = r)) →
      insertB lessL lessR m l r pL pR = (m, none)) ∧
    ((∀ id ∈ m.treeL.inorder, m.getterL id ≠ l) →
     (∀ id ∈ m.treeR.inorder, m.getterR id ≠ r) →
      ∃ nid, insertB lessL lessR m l r pL pR =
          ((insertB lessL lessR m l r pL pR).1, some nid) ∧
        (insertB lessL lessR m l r pL pR).1.getterL nid = l ∧
        (insertB lessL lessR m l r pL pR).1.getterR nid = r ∧
        findL lessL (insertB lessL lessR m l r pL pR).1 l = some nid ∧
        findR lessR (insertB lessL lessR m l r pL pR).1 r = some nid ∧
        (insertB lessL lessR m l r pL pR).1.size = m.size + 1 ∧
        (insertB lessL lessR m l r pL pR).1.pairsL.Perm
          ((l, r) :: m.pairsL)) := by
  constructor
  · intro hex
    have hc : (containsL lessL m l || containsR lessR m r) = true := by
      rcases hex with hex | hex
      · rw [Bool.or_eq_true]
        exact Or.inl ((containsL_iff hL wf).2 hex)
      · rw [Bool.or_eq_true]
        exact Or.inr ((containsR_iff hR wf).2 hex)
    simp [insertB, hc]
  · intro hnl hnr
    have hcl : containsL lessL m l = false := by
      cases hc : containsL lessL m l
      · rfl
      · obtain ⟨d, hd, hk⟩ := (containsL_iff hL wf).1 hc
        exact absurd hk (hnl d hd)
    have hcr : containsR lessR m r = false := by
      cases hc : containsR lessR m r
      · rfl
      · obtain ⟨d, hd, hk⟩ := (containsR_iff hR wf).1 hc
        exact absurd hk (hnr d hd)
    have hred : insertB lessL lessR m l r pL pR =
        (insertedState lessL lessR m l r pL pR, some m.nextId) := by
      simp [insertB, hcl, hcr]
    have wf1 : WF lessL lessR (insertedState lessL lessR m l r pL pR) :=
      wf_insertedState hL hR wf hcl hcr
    refine ⟨m.nextId, ?_, ?_, ?_, ?_, ?_, ?_, ?_⟩
    · rw [hred]
    · rw [hred]; exact insertedState_getterL_new
    · rw [hred]; exact insertedState_getterR_new
    · rw [hred]
      show findL lessL (insertedState lessL lessR m l r pL pR) l = _
      rw [findL]
      refine tfind_of_mem hL wf1.bstL ?_ insertedState_getterL_new
      exact insertedState_inorderL_perm.mem_iff.2 (List.mem_cons_self _ _)
    · rw [hred]
      show findR lessR (insertedState lessL lessR m l r pL pR) r = _
      rw [findR]
      refine tfind_of_mem hR wf1.bstR ?_ insertedState_getterR_new
      exact insertedState_inorderR_perm.mem_iff.2 (List.mem_cons_self _ _)
    · rw [hred]; rfl
    · rw [hred]
      exact insertedState_pairsL_perm wf

/-- Witness for C2 at a concrete instance: inserting (2, 3) into the
bimap holding {(1, 2)} succeeds with the stated effects, and re-inserting
left key 1 is rejected unchanged. -/
theorem c2_insert_all_or_nothing_witness :
    (insertB intLt intLt (insertB intLt intLt Bimap.empty 1 2 5 5).1
        2 3 7 7).1.size =
      (insertB intLt intLt Bimap.empty 1 2 5 5).1.size + 1 ∧
    insertB intLt intLt (insertB intLt intLt Bimap.empty 1 2 5 5).1
        1 9 7 7 =
      ((insertB intLt intLt Bimap.empty 1 2 5 5).1, none) := by
  have hwf : WF intLt intLt (insertB intLt intLt Bimap.empty 1 2 5 5).1 :=
    reach_wf slo_intLt slo_intLt
      (Reachable.insert 1 2 5 5 Reachable.empty)
  constructor
  · obtain ⟨nid, _, _, _, _, _, hsz, _⟩ :=
      (c2_insert_all_or_nothing slo_intLt slo_intLt hwf 2 3 7 7).2
        (by decide) (by decide)
    exact hsz
  · exact (c2_insert_all_or_nothing slo_intLt slo_intLt hwf 1 9 7 7).1
      (Or.inl (by decide))

/-- Claim C3: after every public bimap operation (any reachable state),
each view's tree is a binary search tree under that view's comparator,
every node's priority is ≥ both children's priorities, `size()` equals
the number of live pairs (in either view's tree and in the record store),
and iterating from `begin` to `end` of either view — `begin` is the
head of the in-order sequence and each `next()` step its list successor
— yields strictly increasing keys under that view's comparator. -/
theorem c3_invariants {L R : Type} [Inhabited L] [Inhabited R]
    {lessL : L → L → Bool} {lessR : R → R → Bool}
    (hL : SLO lessL) (hR : SLO lessR) {m : Bimap L R}
    (hr : Reachable lessL lessR m) :
    IsBST lessL m.getterL m.treeL ∧ IsBST lessR m.getterR m.treeR ∧
    IsHeap m.prioL m.treeL ∧ IsHeap m.prioR m.treeR ∧
    m.size = m.treeL.inorder.length ∧ m.size = m.treeR.inorder.length ∧
    m.size = m.recs.length ∧
    (keysOf m.getterL m.treeL).Pairwise (fun a b => lessL a b = true) ∧
    (keysOf m.getterR m.treeR).Pairwise (fun a b => lessR a b = true) ∧
    m.beginL = m.treeL.inorder.head? ∧
    m.beginR = m.treeR.inorder.head? ∧
    (∀ d ∈ m.treeL.inorder, tsucc m.treeL d = afterIn m.treeL.inorder d) ∧
    (∀ d ∈ m.treeR.inorder, tsucc m.treeR d = afterIn m.treeR.inorder d) := by
  have wf := reach_wf hL hR hr
  refine ⟨wf.bstL, wf.bstR, wf.heapL, wf.heapR, wf.sizeEq, ?_, ?_,
    bst_sorted hL wf.bstL, bst_sorted hR wf.bstR, ?_, ?_, ?_, ?_⟩
  · rw [wf.sizeEq, wf.permLR.length_eq]
  · rw [wf.sizeEq, ← wf.recsKeys.length_eq, List.length_map]
  · rw [Bimap.beginL, tfirst_eq_head]
  · rw [Bimap.beginR, tfirst_eq_head]
  · exact fun d hd => tsucc_spec wf.nodupL hd
  · exact fun d hd => tsucc_spec wf.nodupR hd

/-- Witness for C3: the state reached by inserting (1, 2), (2, 3) and
erasing left key 1 satisfies the invariant bundle. -/
theorem c3_invariants_witness :
    (eraseLKey intLt (insertB intLt intLt
        (insertB intLt intLt Bimap.empty 1 2 5 5).1 2 3 3 3).1 1).1.size =
      (eraseLKey intLt (insertB intLt intLt
        (insertB intLt intLt Bimap.empty 1 2 5 5).1 2 3 3 3).1
          1).1.treeL.inorder.length := by
  have hr : Reachable intLt intLt
      (eraseLKey intLt (insertB intLt intLt
        (insertB intLt intLt Bimap.empty 1 2 5 5).1 2 3 3 3).1 1).1 :=
    Reachable.eraseLKey 1
      (Reachable.insert 2 3 3 3 (Reachable.insert 1 2 5 5 Reachable.empty))
  exact (c3_invariants slo_intLt slo_intLt hr).2.2.2.2.1

/-- Claim C7: `at_left` returns the right key paired with k when k is
present as a left key, and on an absent key signals NotFound
(`std::out_of_range`, modelled as `Except.error "Key not found"`) without
producing a value — never a silent default; symmetrically for `at_right`.
The concrete scenario: a bimap holding exactly {(4, 3)} has
`at_left(4) = 3` and `at_left(1)` raising NotFound.  (`atL`/`atR` take
the state immutably, so the bimap is unchanged by construction.) -/
theorem c7_at_notfound {L R : Type} [Inhabited L] [Inhabited R]
    {lessL : L → L → Bool} {lessR : R → R → Bool}
    (hL : SLO lessL) (hR : SLO lessR) {m : Bimap L R}
    (wf : WF lessL lessR m) :
    (∀ (k : L) (v : R) (id : Nat), id ∈ m.treeL.inorder →
      m.getterL id = k → m.getterR id = v → atL lessL m k = .ok v) ∧
    (∀ k : L, (∀ id ∈ m.treeL.inorder, m.getterL id ≠ k) →
      atL lessL m k = .error "Key not found") ∧
    (∀ (k : R) (v : L) (id : Nat), id ∈ m.treeR.inorder →
      m.getterR id = k → m.getterL id = v → atR lessR m k = .ok v) ∧
    (∀ k : R, (∀ id ∈ m.treeR.inorder, m.getterR id ≠ k) →
      atR lessR m k = .error "Key not found") ∧
    atL intLt (insertB intLt intLt Bimap.empty 4 3 0 0).1 4 = .ok 3 ∧
    atL intLt (insertB intLt intLt Bimap.empty 4 3 0 0).1 1 =
      .error "Key not found" := by
  refine ⟨?_, ?_, ?_, ?_, rfl, rfl⟩
  · intro k v d hd hk hv
    rw [atL, findL, tfind_of_mem hL wf.bstL hd hk]
    exact congrArg Except.ok hv
  · intro k hk
    rw [atL, findL, tfind_none hL hk]
  · intro k v d hd hk hv
    rw [atR, findR, tfind_of_mem hR wf.bstR hd hk]
    exact congrArg Except.ok hv
  · intro k hk
    rw [atR, findR, tfind_none hR hk]

/-- Witness for C7: applied to the bimap holding {(4, 3)}. -/
theorem c7_at_notfound_witness :
    atL intLt (insertB intLt intLt Bimap.empty 4 3 0 0).1 300 =
      .error "Key not found" := by
  have hwf : WF intLt intLt (insertB intLt intLt Bimap.empty 4 3 0 0).1 :=
    reach_wf slo_intLt slo_intLt
      (Reachable.insert 4 3 0 0 Reachable.empty)
  exact (c7_at_notfound slo_intLt slo_intLt hwf).2.1 300 (by decide)

/-- In a list that is pairwise ordered by `rel`, `find?` returns the
`rel`-least element satisfying the predicate. -/
theorem find?_first_of_pairwise {α : Type} {rel : α → α → Prop}
    {p : α → Bool} {a : α} :
    ∀ {l : List α}, l.Pairwise rel → l.find? p = some a →
      ∀ b ∈ l, p b = true → a = b ∨ rel a b := by
  intro l
  induction l with
  | nil => intro _ h; simp at h
  | cons c t ih =>
    intro hpw hf b hb hpb
    rw [List.find?_cons] at hf
    cases hpc : p c with
    | true =>
      simp only [hpc] at hf
      obtain rfl := Option.some_injective _ hf
      rcases List.mem_cons.1 hb with rfl | hbt
      · exact Or.inl rfl
      · exact Or.inr ((List.pairwise_cons.1 hpw).1 b hbt)
    | false =>
      simp only [hpc] at hf
      rcases List.mem_cons.1 hb with rfl | hbt
      · rw [hpb] at hpc
        exact absurd hpc (by simp)
      · exact ih (List.pairwise_cons.1 hpw).2 hf b hbt hpb

/-- Claim C6: `lower_bound_left(k)` returns the cursor to the least left
key not less than k (or `end_left()` when none exists), and
`upper_bound_left(k)` the least left key strictly greater than k (or
`end_left()`); the right side is symmetric, and `find` on an absent key
returns the sentinel.  Concrete scenario with pairs
{(1,2),(2,3),(3,4),(8,16),(32,66)}: `lower_bound_left(4)` dereferences
to 8 and `lower_bound_left(100)` is `end_left()`. -/
theorem c6_bounds {L R : Type} [Inhabited L] [Inhabited R]
    {lessL : L → L → Bool} {lessR : R → R → Bool}
    (hL : SLO lessL) (hR : SLO lessR) {m : Bimap L R}
    (wf : WF lessL lessR m) :
    (∀ (k : L) (d : Nat), lowerBoundL lessL m k = some d →
      d ∈ m.treeL.inorder ∧ lessL (m.getterL d) k = false ∧
      ∀ x ∈ m.treeL.inorder, lessL (m.getterL x) k = false →
        m.getterL d = m.getterL x ∨
          lessL (m.getterL d) (m.getterL x) = true) ∧
    (∀ k : L, lowerBoundL lessL m k = none →
      ∀ x ∈ m.treeL.inorder, lessL (m.getterL x) k = true) ∧
    (∀ (k : L) (d : Nat), upperBoundL lessL m k = some d →
      d ∈ m.treeL.inorder ∧ lessL k (m.getterL d) = true ∧
      ∀ x ∈ m.treeL.inorder, lessL k (m.getterL x) = true →
        m.getterL d = m.getterL x ∨
          lessL (m.getterL d) (m.getterL x) = true) ∧
    (∀ k : L, upperBoundL lessL m k = none →
      ∀ x ∈ m.treeL.inorder, lessL k (m.getterL x) = false) ∧
    (∀ (k : R) (d : Nat), lowerBoundR lessR m k = some d →
      d ∈ m.treeR.inorder ∧ lessR (m.getterR d) k = false ∧
      ∀ x ∈ m.treeR.inorder, lessR (m.getterR x) k = false →
        m.getterR d = m.getterR x ∨
          lessR (m.getterR d) (m.getterR x) = true) ∧
    (∀ k : R, lowerBoundR lessR m k = none →
      ∀ x ∈ m.treeR.inorder, lessR (m.getterR x) k = true) ∧
    (∀ (k : R) (d : Nat), upperBoundR lessR m k = some d →
      d ∈ m.treeR.inorder ∧ lessR k (m.getterR d) = true ∧
      ∀ x ∈ m.treeR.inorder, lessR k (m.getterR x) = true →
        m.getterR d = m.getterR x ∨
          lessR (m.getterR d) (m.getterR x) = true) ∧
    (∀ k : R, upperBoundR lessR m k = none →
      ∀ x ∈ m.treeR.inorder, lessR k (m.getterR x) = false) ∧
    (∀ k : L, (∀ x ∈ m.treeL.inorder, m.getterL x ≠ k) →
      findL lessL m k = none) ∧
    (∀ k : R, (∀ x ∈ m.treeR.inorder, m.getterR x ≠ k) →
      findR lessR m k = none) ∧
    (match lowerBoundL intLt (insertList intLt intLt
        [((1, 2), 5, 5), ((2, 3), 3, 3), ((3, 4), 8, 8), ((8, 16), 2, 2),
          ((32, 66), 7, 7)] : Bimap Int Int) 4 with
      | some d => (insertList intLt intLt
          [((1, 2), 5, 5), ((2, 3), 3, 3), ((3, 4), 8, 8), ((8, 16), 2, 2),
            ((32, 66), 7, 7)] : Bimap Int Int).getterL d
      | none => 0) = 8 ∧
    lowerBoundL intLt (insertList intLt intLt
        [((1, 2), 5, 5), ((2, 3), 3, 3), ((3, 4), 8, 8), ((8, 16), 2, 2),
          ((32, 66), 7, 7)] : Bimap Int Int) 100 = none := by
  have hsortL : m.treeL.inorder.Pairwise
      (fun x y => lessL (m.getterL x) (m.getterL y) = true) := by
    have hs := bst_sorted hL wf.bstL
    rw [keysOf, List.pairwise_map] at hs
    exact hs
  have hsortR : m.treeR.inorder.Pairwise
      (fun x y => lessR (m.getterR x) (m.getterR y) = true) := by
    have hs := bst_sorted hR wf.bstR
    rw [keysOf, List.pairwise_map] at hs
    exact hs
  refine ⟨?_, ?_, ?_, ?_, ?_, ?_, ?_, ?_, ?_, ?_, rfl, rfl⟩
  · intro k d hf
    rw [lowerBoundL, tlowerBound_spec hL wf.bstL] at hf
    refine ⟨List.mem_of_find?_eq_some hf, ?_, ?_⟩
    · have := List.find?_some hf
      simpa using this
    · intro x hx hpx
      have := find?_first_of_pairwise hsortL hf x hx (by simpa using hpx)
      rcases this with rfl | hrel
      · exact Or.inl rfl
      · exact Or.inr hrel
  · intro k hf x hx
    rw [lowerBoundL, tlowerBound_spec hL wf.bstL, List.find?_eq_none] at hf
    have := hf x hx
    simpa using this
  · intro k d hf
    rw [upperBoundL, tupperBound_spec hL wf.bstL] at hf
    refine ⟨List.mem_of_find?_eq_some hf, by simpa using List.find?_some hf, ?_⟩
    intro x hx hpx
    have := find?_first_of_pairwise hsortL hf x hx hpx
    rcases this with rfl | hrel
    · exact Or.inl rfl
    · exact Or.inr hrel
  · intro k hf x hx
    rw [upperBoundL, tupperBound_spec hL wf.bstL, List.find?_eq_none] at hf
    have := hf x hx
    simpa using this
  · intro k d hf
    rw [lowerBoundR, tlowerBound_spec hR wf.bstR] at hf
    refine ⟨List.mem_of_find?_eq_some hf, ?_, ?_⟩
    · have := List.find?_some hf
      simpa using this
    · intro x hx hpx
      have := find?_first_of_pairwise hsortR hf x hx (by simpa using hpx)
      rcases this with rfl | hrel
      · exact Or.inl rfl
      · exact Or.inr hrel
  · intro k hf x hx
    rw [lowerBoundR, tlowerBound_spec hR wf.bstR, List.find?_eq_none] at hf
    have := hf x hx
    simpa using this
  · intro k d hf
    rw [upperBoundR, tupperBound_spec hR wf.bstR] at hf
    refine ⟨List.mem_of_find?_eq_some hf, by simpa using List.find?_some hf, ?_⟩
    intro x hx hpx
    have := find?_first_of_pairwise hsortR hf x hx hpx
    rcases this with rfl | hrel
    · exact Or.inl rfl
    · exact Or.inr hrel
  · intro k hf x hx
    rw [upperBoundR, tupperBound_spec hR wf.bstR, List.find?_eq_none] at hf
    have := hf x hx
    simpa using this
  · intro k hk
    rw [findL]
    exact tfind_none hL hk
  · intro k hk
    rw [findR]
    exact tfind_none hR hk

/-- Witness for C6: the bound characterization applied to the concrete
five-pair instance at key 5. -/
theorem c6_bounds_witness :
    intLt ((insertList intLt intLt
        [((1, 2), 5, 5), ((2, 3), 3, 3), ((3, 4), 8, 8), ((8, 16), 2, 2),
          ((32, 66), 7, 7)] : Bimap Int Int).getterL 0) 100 = true := by
  have hr : Reachable intLt intLt (insertList intLt intLt
      [((1, 2), 5, 5), ((2, 3), 3, 3), ((3, 4), 8, 8), ((8, 16), 2, 2),
        ((32, 66), 7, 7)] : Bimap Int Int) :=
    Reachable.insert 32 66 7 7 (Reachable.insert 8 16 2 2
      (Reachable.insert 3 4 8 8 (Reachable.insert 2 3 3 3
        (Reachable.insert 1 2 5 5 Reachable.empty))))
  have hwf := reach_wf slo_intLt slo_intLt hr
  exact (c6_bounds slo_intLt slo_intLt hwf).2.1 100 rfl 0 (by decide)

/-- Claim C4: for every bimap containing neither left key k1 nor right
key k2, immediately after a successful `insert(k1, k2)`:
`find_left(k1).flip()` dereferences to k2 and `find_right(k2).flip()`
dereferences to k1 (flip is the identity on the record, so dereferencing
the flipped cursor reads the opposite key of the found record).
Concretely, after inserting (1,2), (2,3), (42,1000) into an empty
`bimap<int,int>`: `*find_right(1000).flip() == 42` and
`find_left(3436) == end_left()`. -/
theorem c4_insert_find_flip {L R : Type} [Inhabited L] [Inhabited R]
    {lessL : L → L → Bool} {lessR : R → R → Bool}
    (hL : SLO lessL) (hR : SLO lessR) {m : Bimap L R}
    (wf : WF lessL lessR m) (k1 : L) (k2 : R) (pL pR : Int)
    (h1 : ∀ id ∈ m.treeL.inorder, m.getterL id ≠ k1)
    (h2 : ∀ id ∈ m.treeR.inorder, m.getterR id ≠ k2) :
    (∃ nid, findL lessL (insertB lessL lessR m k1 k2 pL pR).1 k1 = some nid ∧
      (insertB lessL lessR m k1 k2 pL pR).1.getterR nid = k2) ∧
    (∃ nid, findR lessR (insertB lessL lessR m k1 k2 pL pR).1 k2 = some nid ∧
      (insertB lessL lessR m k1 k2 pL pR).1.getterL nid = k1) ∧
    (match findR intLt (insertList intLt intLt
        [((1, 2), 5, 5), ((2, 3), 9, 9), ((42, 1000), 3, 3)] :
          Bimap Int Int) 1000 with
      | some d => (insertList intLt intLt
          [((1, 2), 5, 5), ((2, 3), 9, 9), ((42, 1000), 3, 3)] :
            Bimap Int Int).getterL d
      | none => 0) = 42 ∧
    findL intLt (insertList intLt intLt
        [((1, 2), 5, 5), ((2, 3), 9, 9), ((42, 1000), 3, 3)] :
          Bimap Int Int) 3436 = none := by
  have hcl : containsL lessL m k1 = false := by
    cases hc : containsL lessL m k1
    · rfl
    · obtain ⟨d, hd, hk⟩ := (containsL_iff hL wf).1 hc
      exact absurd hk (h1 d hd)
  have hcr : containsR lessR m k2 = false := by
    cases hc : containsR lessR m k2
    · rfl
    · obtain ⟨d, hd, hk⟩ := (containsR_iff hR wf).1 hc
      exact absurd hk (h2 d hd)
  have hred : insertB lessL lessR m k1 k2 pL pR =
      (insertedState lessL lessR m k1 k2 pL pR, some m.nextId) := by
    simp [insertB, hcl, hcr]
  have wf1 : WF lessL lessR (insertedState lessL lessR m k1 k2 pL pR) :=
    wf_insertedState hL hR wf hcl hcr
  refine ⟨?_, ?_, rfl, rfl⟩
  · refine ⟨m.nextId, ?_, ?_⟩
    · rw [hred]
      show findL lessL (insertedState lessL lessR m k1 k2 pL pR) k1 = _
      rw [findL]
      refine tfind_of_mem hL wf1.bstL ?_ insertedState_getterL_new
      exact insertedState_inorderL_perm.mem_iff.2 (List.mem_cons_self _ _)
    · rw [hred]
      exact insertedState_getterR_new
  · refine ⟨m.nextId, ?_, ?_⟩
    · rw [hred]
      show findR lessR (insertedState lessL lessR m k1 k2 pL pR) k2 = _
      rw [findR]
      refine tfind_of_mem hR wf1.bstR ?_ insertedState_getterR_new
      exact insertedState_inorderR_perm.mem_iff.2 (List.mem_cons_self _ _)
    · rw [hred]
      exact insertedState_getterL_new

/-- Witness for C4: inserting (2, 3) into the bimap holding {(1, 2)}. -/
theorem c4_insert_find_flip_witness :
    ∃ nid, findL intLt (insertB intLt intLt
        (insertB intLt intLt Bimap.empty 1 2 5 5).1 2 3 7 7).1 2 =
          some nid ∧
      (insertB intLt intLt
        (insertB intLt intLt Bimap.empty 1 2 5 5).1 2 3 7 7).1.getterR nid
        = 3 := by
  have hwf : WF intLt intLt (insertB intLt intLt Bimap.empty 1 2 5 5).1 :=
    reach_wf slo_intLt slo_intLt
      (Reachable.insert 1 2 5 5 Reachable.empty)
  exact (c4_insert_find_flip slo_intLt slo_intLt hwf 2 3 7 7
    (by decide) (by decide)).1

/-- Claim C1: in every reachable bimap state, erasing through a valid
non-end left-view cursor pointing at the pair (l, r) removes that pair
from both views (`find_left(l)` and `find_right(r)` then return the end
sentinels), decrements `size()` by exactly one, leaves every other pair
present and findable in both views, and returns the cursor to the
left-view successor the erased position had before the erasure (`none`,
i.e. `end_left()`, when it was at the maximum); symmetrically for
`erase_right` on a right-view cursor. -/
theorem c1_erase_cursor {L R : Type} [Inhabited L] [Inhabited R]
    {lessL : L → L → Bool} {lessR : R → R → Bool}
    (hL : SLO lessL) (hR : SLO lessR) {m : Bimap L R}
    (hr : Reachable lessL lessR m) :
    (∀ d ∈ m.treeL.inorder,
      findL lessL (eraseLIt m d).1 (m.getterL d) = none ∧
      findR lessR (eraseLIt m d).1 (m.getterR d) = none ∧
      (eraseLIt m d).1.size + 1 = m.size ∧
      (∀ x ∈ m.treeL.inorder, x ≠ d →
        findL lessL (eraseLIt m d).1 (m.getterL x) = some x ∧
        findR lessR (eraseLIt m d).1 (m.getterR x) = some x ∧
        (eraseLIt m d).1.getterL x = m.getterL x ∧
        (eraseLIt m d).1.getterR x = m.getterR x) ∧
      (eraseLIt m d).2 = afterIn m.treeL.inorder d) ∧
    (∀ d ∈ m.treeR.inorder,
      findL lessL (eraseRIt m d).1 (m.getterL d) = none ∧
      findR lessR (eraseRIt m d).1 (m.getterR d) = none ∧
      (eraseRIt m d).1.size + 1 = m.size ∧
      (∀ x ∈ m.treeR.inorder, x ≠ d →
        findL lessL (eraseRIt m d).1 (m.getterL x) = some x ∧
        findR lessR (eraseRIt m d).1 (m.getterR x) = some x ∧
        (eraseRIt m d).1.getterL x = m.getterL x ∧
        (eraseRIt m d).1.getterR x = m.getterR x) ∧
      (eraseRIt m d).2 = afterIn m.treeR.inorder d) := by
  have wf := reach_wf hL hR hr
  have main : ∀ d ∈ m.treeL.inorder,
      findL lessL (eraseImpl m d).1 (m.getterL d) = none ∧
      findR lessR (eraseImpl m d).1 (m.getterR d) = none ∧
      (eraseImpl m d).1.size + 1 = m.size ∧
      (∀ x ∈ m.treeL.inorder, x ≠ d →
        findL lessL (eraseImpl m d).1 (m.getterL x) = some x ∧
        findR lessR (eraseImpl m d).1 (m.getterR x) = some x ∧
        (eraseImpl m d).1.getterL x = m.getterL x ∧
        (eraseImpl m d).1.getterR x = m.getterR x) := by
    intro d hd
    have wf2 := wf_eraseImpl hL hR wf hd
    have hdR : d ∈ m.treeR.inorder := wf.memLR.2 hd
    have hmemL : ∀ x ∈ (eraseImpl m d).1.treeL.inorder,
        x ≠ d ∧ x ∈ m.treeL.inorder := by
      intro x hx
      rw [eraseImpl_inorderL wf] at hx
      exact ⟨(wf.nodupL.mem_erase_iff.1 hx).1,
        (wf.nodupL.mem_erase_iff.1 hx).2⟩
    have hmemR : ∀ x ∈ (eraseImpl m d).1.treeR.inorder,
        x ≠ d ∧ x ∈ m.treeR.inorder := by
      intro x hx
      rw [eraseImpl_inorderR wf] at hx
      exact ⟨(wf.nodupR.mem_erase_iff.1 hx).1,
        (wf.nodupR.mem_erase_iff.1 hx).2⟩
    refine ⟨?_, ?_, ?_, ?_⟩
    · rw [findL]
      refine tfind_none hL ?_
      intro x hx heq
      obtain ⟨hxd, hxm⟩ := hmemL x hx
      rw [eraseImpl_getterL_agree hxd] at heq
      exact hxd (wf_getterL_inj hL wf hxm hd heq)
    · rw [findR]
      refine tfind_none hR ?_
      intro x hx heq
      obtain ⟨hxd, hxm⟩ := hmemR x hx
      rw [eraseImpl_getterR_agree hxd] at heq
      exact hxd (wf_getterR_inj hR wf hxm hdR heq)
    · have hpos : 0 < m.size := by
        rw [wf.sizeEq]
        exact List.length_pos.2 (fun he => by rw [he] at hd; simp at hd)
      have hsz : (eraseImpl m d).1.size = m.size - 1 := rfl
      omega
    · intro x hxm hxd
      have hxE : x ∈ (eraseImpl m d).1.treeL.inorder := by
        rw [eraseImpl_inorderL wf]
        exact wf.nodupL.mem_erase_iff.2 ⟨hxd, hxm⟩
      have hxER : x ∈ (eraseImpl m d).1.treeR.inorder := by
        rw [eraseImpl_inorderR wf]
        exact wf.nodupR.mem_erase_iff.2 ⟨hxd, wf.memLR.2 hxm⟩
      refine ⟨?_, ?_, eraseImpl_getterL_agree hxd,
        eraseImpl_getterR_agree hxd⟩
      · rw [findL]
        exact tfind_of_mem hL wf2.bstL hxE (eraseImpl_getterL_agree hxd)
      · rw [findR]
        exact tfind_of_mem hR wf2.bstR hxER (eraseImpl_getterR_agree hxd)
  constructor
  · intro d hd
    obtain ⟨ha, hb, hc2, hothers⟩ := main d hd
    exact ⟨ha, hb, hc2, hothers,
      by rw [eraseLIt_eq]; exact tsucc_spec wf.nodupL hd⟩
  · intro d hd
    obtain ⟨ha, hb, hc2, hothers⟩ := main d (wf.memLR.1 hd)
    refine ⟨ha, hb, hc2, ?_, ?_⟩
    · intro x hx hxd
      exact hothers x (wf.memLR.1 hx) hxd
    · rw [eraseRIt_eq]
      exact tsucc_spec wf.nodupR hd

/-- Witness for C1: erasing the cursor at left key 1 from the bimap
holding {(1, 2), (2, 3)}; its left-view successor is the node of left
key 2. -/
theorem c1_erase_cursor_witness :
    findL intLt (eraseLIt (insertB intLt intLt (insertB intLt intLt
        Bimap.empty 1 2 5 5).1 2 3 3 3).1 0).1
      ((insertB intLt intLt (insertB intLt intLt Bimap.empty
        1 2 5 5).1 2 3 3 3).1.getterL 0) = none ∧
    (eraseLIt (insertB intLt intLt (insertB intLt intLt
        Bimap.empty 1 2 5 5).1 2 3 3 3).1 0).2 =
      afterIn (insertB intLt intLt (insertB intLt intLt
        Bimap.empty 1 2 5 5).1 2 3 3 3).1.treeL.inorder 0 := by
  have hrc : Reachable intLt intLt (insertB intLt intLt
      (insertB intLt intLt Bimap.empty 1 2 5 5).1 2 3 3 3).1 :=
    Reachable.insert 2 3 3 3 (Reachable.insert 1 2 5 5 Reachable.empty)
  have h := (c1_erase_cursor slo_intLt slo_intLt hrc).1 0 (by decide)
  exact ⟨h.1, h.2.2.2.2⟩

/-- Claim C10 (code bug): move-constructing a bimap cannot transfer the
trees and repoint the sentinel, because `treap_storage`'s move
constructor leaves its own `end_elem` at the default member initializer
(`nullptr`) and then runs `swap(other)`, which evaluates
`end_elem->left` on the null pointer — before the bimap constructor's
`validate_ends()` could ever run.  In the pointer model the move
construction faults for every source state (even an empty bimap). -/
theorem c10_move_ctor_null_deref :
    ∀ (heapLeft : Nat → Option Nat) (otherL otherR : StoragePtr),
      bimapMoveCtorPtr heapLeft otherL otherR = .error () := by
  intro heapLeft otherL otherR
  obtain ⟨e⟩ := otherL
  cases e <;> rfl

theorem eqPairs_iff {L R : Type} [DecidableEq L] [DecidableEq R] :
    ∀ {xs ys : List (L × R)}, xs.length = ys.length →
      (Bimap.eqPairs xs ys = true ↔ xs = ys)
  | [], [], _ => by simp [Bimap.eqPairs]
  | [], y :: ys, h => by simp at h
  | x :: xs, [], h => by simp at h
  | x :: xs, y :: ys, h => by
    have ih : Bimap.eqPairs xs ys = true ↔ xs = ys :=
      eqPairs_iff (by simpa using h)
    rw [Bimap.eqPairs]
    constructor
    · intro hq
      rw [Bool.and_eq_true, Bool.and_eq_true] at hq
      obtain ⟨⟨h1, h2⟩, h3⟩ := hq
      rw [decide_eq_true_eq] at h1 h2
      rw [ih.1 h3]
      cases x
      cases y
      simp only at h1 h2
      rw [h1, h2]
    · intro he
      obtain ⟨rfl, rfl⟩ := by
        rw [List.cons_eq_cons] at he
        exact he
      rw [Bool.and_eq_true, Bool.and_eq_true]
      exact ⟨⟨by simp, by simp⟩, ih.2 rfl⟩

theorem pairsL_map_fst {L R : Type} [Inhabited L] [Inhabited R]
    {m : Bimap L R} :
    m.pairsL.map Prod.fst = keysOf m.getterL m.treeL := by
  simp [Bimap.pairsL, keysOf, List.map_map]

theorem pairsL_map_snd {L R : Type} [Inhabited L] [Inhabited R]
    {m : Bimap L R} :
    m.pairsL.map Prod.snd = m.treeL.inorder.map m.getterR := by
  simp [Bimap.pairsL, List.map_map]

theorem insertListFrom_spec {L R : Type} [Inhabited L] [Inhabited R]
    {lessL : L → L → Bool} {lessR : R → R → Bool}
    (hL : SLO lessL) (hR : SLO lessR) :
    ∀ (ps : List ((L × R) × Int × Int)) (m : Bimap L R),
      Bimap.WF lessL lessR m →
      (m.pairsL.map Prod.fst ++ ps.map (fun p => p.1.1)).Nodup →
      (m.pairsL.map Prod.snd ++ ps.map (fun p => p.1.2)).Nodup →
      Bimap.WF lessL lessR (Bimap.insertListFrom lessL lessR ps m) ∧
      (Bimap.insertListFrom lessL lessR ps m).pairsL.Perm
        (m.pairsL ++ ps.map Prod.fst) := by
  intro ps
  induction ps with
  | nil =>
    intro m wf _ _
    refine ⟨wf, ?_⟩
    simp [Bimap.insertListFrom]
  | cons p rest ih =>
    intro m wf hndL hndR
    obtain ⟨⟨l, r⟩, pL, pR⟩ := p
    have hstep : Bimap.insertListFrom lessL lessR (((l, r), pL, pR) :: rest) m =
        Bimap.insertListFrom lessL lessR rest
          (Bimap.insertB lessL lessR m l r pL pR).1 := rfl
    have hlmem : l ∉ m.pairsL.map Prod.fst := by
      intro hmem
      have hdisj := (List.nodup_append.1 hndL).2.2
      exact hdisj hmem (by simp)
    have hrmem : r ∉ m.pairsL.map Prod.snd := by
      intro hmem
      have hdisj := (List.nodup_append.1 hndR).2.2
      exact hdisj hmem (by simp)
    have hcl : Bimap.containsL lessL m l = false := by
      cases hc : Bimap.containsL lessL m l
      · rfl
      · obtain ⟨d, hd, hk⟩ := (Bimap.containsL_iff hL wf).1 hc
        refine (hlmem ?_).elim
        rw [pairsL_map_fst, keysOf]
        exact hk ▸ List.mem_map_of_mem m.getterL hd
    have hcr : Bimap.containsR lessR m r = false := by
      cases hc : Bimap.containsR lessR m r
      · rfl
      · obtain ⟨d, hd, hk⟩ := (Bimap.containsR_iff hR wf).1 hc
        refine (hrmem ?_).elim
        rw [pairsL_map_snd]
        exact hk ▸ List.mem_map_of_mem m.getterR (wf.memLR.1 hd)
    have hred : Bimap.insertB lessL lessR m l r pL pR =
        (Bimap.insertedState lessL lessR m l r pL pR, some m.nextId) := by
      simp [Bimap.insertB, hcl, hcr]
    have wf1 : Bimap.WF lessL lessR
        (Bimap.insertedState lessL lessR m l r pL pR) :=
      Bimap.wf_insertedState hL hR wf hcl hcr
    have hpp : (Bimap.insertedState lessL lessR m l r pL pR).pairsL.Perm
        ((l, r) :: m.pairsL) := Bimap.insertedState_pairsL_perm wf
    have hppf : ((Bimap.insertedState lessL lessR m l r pL
        pR).pairsL.map Prod.fst).Perm (l :: m.pairsL.map Prod.fst) :=
      hpp.map Prod.fst
    have hpps : ((Bimap.insertedState lessL lessR m l r pL
        pR).pairsL.map Prod.snd).Perm (r :: m.pairsL.map Prod.snd) :=
      hpp.map Prod.snd
    have hndL1 : ((Bimap.insertedState lessL lessR m l r pL
        pR).pairsL.map Prod.fst ++ rest.map (fun p => p.1.1)).Nodup := by
      refine ((hppf.append_right _).nodup_iff).2 ?_
      have hperm2 : ((l :: m.pairsL.map Prod.fst) ++
          rest.map (fun p => p.1.1)).Perm
          (m.pairsL.map Prod.fst ++
            (((l, r), pL, pR) :: rest).map (fun p => p.1.1)) := by
        show ((l :: m.pairsL.map Prod.fst) ++
          rest.map (fun p => p.1.1)).Perm
          (m.pairsL.map Prod.fst ++ l :: rest.map (fun p => p.1.1))
        exact List.perm_middle.symm
      exact (hperm2.nodup_iff).2 hndL
    have hndR1 : ((Bimap.insertedState lessL lessR m l r pL
        pR).pairsL.map Prod.snd ++ rest.map (fun p => p.1.2)).Nodup := by
      refine ((hpps.append_right _).nodup_iff).2 ?_
      have hperm2 : ((r :: m.pairsL.map Prod.snd) ++
          rest.map (fun p => p.1.2)).Perm
          (m.pairsL.map Prod.snd ++
            (((l, r), pL, pR) :: rest).map (fun p => p.1.2)) := by
        show ((r :: m.pairsL.map Prod.snd) ++
          rest.map (fun p => p.1.2)).Perm
          (m.pairsL.map Prod.snd ++ r :: rest.map (fun p => p.1.2))
        exact List.perm_middle.symm
      exact (hperm2.nodup_iff).2 hndR
    obtain ⟨wfr, hpr⟩ := ih (Bimap.insertedState lessL lessR m l r pL pR)
      wf1 hndL1 hndR1
    rw [hstep, hred]
    refine ⟨wfr, ?_⟩
    refine hpr.trans ?_
    refine ((hpp.append_right _).trans ?_)
    show (((l, r) :: m.pairsL) ++ rest.map Prod.fst).Perm
      (m.pairsL ++ (l, r) :: rest.map Prod.fst)
    exact List.perm_middle.symm

/-- Claim C5: `at_left_or_default(k)` returns the partner of k unchanged
when k is a left key; otherwise, with d the default-constructed right
value, any pair currently holding right key d is first erased from both
views (its own left partner disappears from the map entirely), then
(k, d) is inserted and d — the paired value of the new record — is
returned; `at_right_or_default` symmetric. -/
theorem c5_at_or_default {L R : Type} [Inhabited L] [Inhabited R]
    {lessL : L → L → Bool} {lessR : R → R → Bool}
    (hL : SLO lessL) (hR : SLO lessR) {m : Bimap L R}
    (wf : WF lessL lessR m) (k : L) (k2 : R) (pL pR : Int) :
    (∀ id ∈ m.treeL.inorder, m.getterL id = k →
      atLOrDefault lessL lessR m k pL pR = (m, m.getterR id)) ∧
    ((∀ id ∈ m.treeL.inorder, m.getterL id ≠ k) →
      (atLOrDefault lessL lessR m k pL pR).2 = (default : R) ∧
      (∃ nid,
        findL lessL (atLOrDefault lessL lessR m k pL pR).1 k = some nid ∧
        (atLOrDefault lessL lessR m k pL pR).1.getterR nid =
          (default : R)) ∧
      (∀ rid ∈ m.treeR.inorder, m.getterR rid = (default : R) →
        findL lessL (atLOrDefault lessL lessR m k pL pR).1
          (m.getterL rid) = none) ∧
      (∀ x ∈ m.treeL.inorder, m.getterR x ≠ (default : R) →
        findL lessL (atLOrDefault lessL lessR m k pL pR).1
          (m.getterL x) = some x ∧
        findR lessR (atLOrDefault lessL lessR m k pL pR).1
          (m.getterR x) = some x)) ∧
    (∀ id ∈ m.treeR.inorder, m.getterR id = k2 →
      atROrDefault lessL lessR m k2 pL pR = (m, m.getterL id)) ∧
    ((∀ id ∈ m.treeR.inorder, m.getterR id ≠ k2) →
      (atROrDefault lessL lessR m k2 pL pR).2 = (default : L) ∧
      (∃ nid,
        findR lessR (atROrDefault lessL lessR m k2 pL pR).1 k2 = some nid ∧
        (atROrDefault lessL lessR m k2 pL pR).1.getterL nid =
          (default : L)) ∧
      (∀ lid ∈ m.treeL.inorder, m.getterL lid = (default : L) →
        findR lessR (atROrDefault lessL lessR m k2 pL pR).1
          (m.getterR lid) = none) ∧
      (∀ x ∈ m.treeR.inorder, m.getterL x ≠ (default : L) →
        findR lessR (atROrDefault lessL lessR m k2 pL pR).1
          (m.getterR x) = some x ∧
        findL lessL (atROrDefault lessL lessR m k2 pL pR).1
          (m.getterL x) = some x)) := by
  refine ⟨?_, ?_, ?_, ?_⟩
  · intro d hd hk
    have hf : findL lessL m k = some d := by
      rw [findL]
      exact tfind_of_mem hL wf.bstL hd hk
    simp [atLOrDefault, hf]
  · intro habs
    have hf : findL lessL m k = none := by
      rw [findL]
      exact tfind_none hL habs
    cases hf2 : findR lessR m (default : R) with
    | some rid =>
      have hridR : rid ∈ m.treeR.inorder := (tfind_some hf2).1
      have hridL : rid ∈ m.treeL.inorder := wf.memLR.1 hridR
      have hridK : m.getterR rid = (default : R) := tfind_eq_key hR hf2
      have wf1 : WF lessL lessR (eraseImpl m rid).1 :=
        wf_eraseImpl hL hR wf hridL
      have hcl1 : containsL lessL (eraseImpl m rid).1 k = false := by
        cases hc : containsL lessL (eraseImpl m rid).1 k
        · rfl
        · obtain ⟨x, hx, hk⟩ := (containsL_iff hL wf1).1 hc
          rw [eraseImpl_inorderL wf] at hx
          obtain ⟨hxne, hxm⟩ := wf.nodupL.mem_erase_iff.1 hx
          rw [eraseImpl_getterL_agree hxne] at hk
          exact absurd hk (habs x hxm)
      have hcr1 : containsR lessR (eraseImpl m rid).1 (default : R) =
          false := by
        cases hc : containsR lessR (eraseImpl m rid).1 (default : R)
        · rfl
        · obtain ⟨x, hx, hk⟩ := (containsR_iff hR wf1).1 hc
          rw [eraseImpl_inorderR wf] at hx
          obtain ⟨hxne, hxm⟩ := wf.nodupR.mem_erase_iff.1 hx
          rw [eraseImpl_getterR_agree hxne] at hk
          exact (hxne (wf_getterR_inj hR wf hxm hridR
            (hk.trans hridK.symm))).elim
      have hredIns : insertB lessL lessR (eraseImpl m rid).1 k
          (default : R) pL pR =
          (insertedState lessL lessR (eraseImpl m rid).1 k
            (default : R) pL pR, some (eraseImpl m rid).1.nextId) := by
        simp [insertB, hcl1, hcr1]
      have wf2 : WF lessL lessR (insertedState lessL lessR
          (eraseImpl m rid).1 k (default : R) pL pR) :=
        wf_insertedState hL hR wf1 hcl1 hcr1
      have hred : atLOrDefault lessL lessR m k pL pR =
          (insertedState lessL lessR (eraseImpl m rid).1 k
            (default : R) pL pR,
           (insertedState lessL lessR (eraseImpl m rid).1 k
            (default : R) pL pR).getterR (eraseImpl m rid).1.nextId) := by
        simp only [atLOrDefault, hf, hf2, hredIns]
      rw [hred]
      have hnewL : (insertedState lessL lessR (eraseImpl m rid).1 k
            (default : R) pL pR).getterL (eraseImpl m rid).1.nextId = k :=
        insertedState_getterL_new
      have hnewR : (insertedState lessL lessR (eraseImpl m rid).1 k
            (default : R) pL pR).getterR (eraseImpl m rid).1.nextId =
          (default : R) := insertedState_getterR_new
      refine ⟨hnewR, ?_, ?_, ?_⟩
      · refine ⟨(eraseImpl m rid).1.nextId, ?_, hnewR⟩
        rw [findL]
        refine tfind_of_mem hL wf2.bstL ?_ hnewL
        exact insertedState_inorderL_perm.mem_iff.2 (List.mem_cons_self _ _)
      · intro rid2 hrid2 hkey2
        have hrideq : rid2 = rid :=
          wf_getterR_inj hR wf hrid2 hridR (hkey2.trans hridK.symm)
        subst hrideq
        rw [findL]
        refine tfind_none hL ?_
        intro x hx heq
        rcases List.mem_cons.1 (insertedState_inorderL_perm.mem_iff.1 hx)
          with rfl | hxm
        · rw [hnewL] at heq
          exact habs rid2 hridL heq.symm
        · have hxlt : x ≠ (eraseImpl m rid2).1.nextId :=
            Nat.ne_of_lt (wf1.mem_lt_nextId hxm)
          rw [insertedState_getterL_old hxlt] at heq
          rw [eraseImpl_inorderL wf] at hxm
          obtain ⟨hxne, hxm2⟩ := wf.nodupL.mem_erase_iff.1 hxm
          rw [eraseImpl_getterL_agree hxne] at heq
          exact hxne (wf_getterL_inj hL wf hxm2 hridL heq)
      · intro x hx hxd
        have hxne : x ≠ rid := fun he => hxd (he ▸ hridK)
        have hxR : x ∈ m.treeR.inorder := wf.memLR.2 hx
        have hxm1L : x ∈ (eraseImpl m rid).1.treeL.inorder := by
          rw [eraseImpl_inorderL wf]
          exact wf.nodupL.mem_erase_iff.2 ⟨hxne, hx⟩
        have hxm1R : x ∈ (eraseImpl m rid).1.treeR.inorder := by
          rw [eraseImpl_inorderR wf]
          exact wf.nodupR.mem_erase_iff.2 ⟨hxne, hxR⟩
        have hxlt : x ≠ (eraseImpl m rid).1.nextId :=
          Nat.ne_of_lt (wf1.mem_lt_nextId hxm1L)
        have hgl : (insertedState lessL lessR (eraseImpl m rid).1 k
            (default : R) pL pR).getterL x = m.getterL x := by
          rw [insertedState_getterL_old hxlt,
            eraseImpl_getterL_agree hxne]
        have hgr : (insertedState lessL lessR (eraseImpl m rid).1 k
            (default : R) pL pR).getterR x = m.getterR x := by
          rw [insertedState_getterR_old hxlt,
            eraseImpl_getterR_agree hxne]
        constructor
        · rw [findL]
          refine tfind_of_mem hL wf2.bstL ?_ hgl
          exact insertedState_inorderL_perm.mem_iff.2
            (List.mem_cons_of_mem _ hxm1L)
        · rw [findR]
          refine tfind_of_mem hR wf2.bstR ?_ hgr
          exact insertedState_inorderR_perm.mem_iff.2
            (List.mem_cons_of_mem _ hxm1R)
    | none =>
      have hcl1 : containsL lessL m k = false := by
        rw [containsL, findL, tfind_none hL habs]
        rfl
      have hcr1 : containsR lessR m (default : R) = false := by
        rw [containsR, hf2]
        rfl
      have hredIns : insertB lessL lessR m k (default : R) pL pR =
          (insertedState lessL lessR m k (default : R) pL pR,
            some m.nextId) := by
        simp [insertB, hcl1, hcr1]
      have wf2 : WF lessL lessR (insertedState lessL lessR m k
          (default : R) pL pR) := wf_insertedState hL hR wf hcl1 hcr1
      have hred : atLOrDefault lessL lessR m k pL pR =
          (insertedState lessL lessR m k (default : R) pL pR,
           (insertedState lessL lessR m k (default : R) pL pR).getterR
             m.nextId) := by
        simp only [atLOrDefault, hf, hf2, hredIns]
      rw [hred]
      have hnewL : (insertedState lessL lessR m k (default : R) pL
            pR).getterL m.nextId = k := insertedState_getterL_new
      have hnewR : (insertedState lessL lessR m k (default : R) pL
            pR).getterR m.nextId = (default : R) :=
        insertedState_getterR_new
      refine ⟨hnewR, ?_, ?_, ?_⟩
      · refine ⟨m.nextId, ?_, hnewR⟩
        rw [findL]
        refine tfind_of_mem hL wf2.bstL ?_ hnewL
        exact insertedState_inorderL_perm.mem_iff.2 (List.mem_cons_self _ _)
      · intro rid hrid hkey
        have : findR lessR m (default : R) = some rid := by
          rw [findR]
          exact tfind_of_mem hR wf.bstR hrid hkey
        rw [hf2] at this
        exact absurd this (by simp)
      · intro x hx hxd
        have hxlt : x ≠ m.nextId := Nat.ne_of_lt (wf.mem_lt_nextId hx)
        have hgl : (insertedState lessL lessR m k (default : R) pL
            pR).getterL x = m.getterL x := insertedState_getterL_old hxlt
        have hgr : (insertedState lessL lessR m k (default : R) pL
            pR).getterR x = m.getterR x := insertedState_getterR_old hxlt
        constructor
        · rw [findL]
          refine tfind_of_mem hL wf2.bstL ?_ hgl
          exact insertedState_inorderL_perm.mem_iff.2
            (List.mem_cons_of_mem _ hx)
        · rw [findR]
          refine tfind_of_mem hR wf2.bstR ?_ hgr
          exact insertedState_inorderR_perm.mem_iff.2
            (List.mem_cons_of_mem _ (wf.memLR.2 hx))
  · intro d hd hk
    have hf : findR lessR m k2 = some d := by
      rw [findR]
      exact tfind_of_mem hR wf.bstR hd hk
    simp [atROrDefault, hf]
  · intro habs
    have hf : findR lessR m k2 = none := by
      rw [findR]
      exact tfind_none hR habs
    cases hf2 : findL lessL m (default : L) with
    | some lid =>
      have hlidL : lid ∈ m.treeL.inorder := (tfind_some hf2).1
      have hlidR : lid ∈ m.treeR.inorder := wf.memLR.2 hlidL
      have hlidK : m.getterL lid = (default : L) := tfind_eq_key hL hf2
      have wf1 : WF lessL lessR (eraseImpl m lid).1 :=
        wf_eraseImpl hL hR wf hlidL
      have hcr1 : containsR lessR (eraseImpl m lid).1 k2 = false := by
        cases hc : containsR lessR (eraseImpl m lid).1 k2
        · rfl
        · obtain ⟨x, hx, hk⟩ := (containsR_iff hR wf1).1 hc
          rw [eraseImpl_inorderR wf] at hx
          obtain ⟨hxne, hxm⟩ := wf.nodupR.mem_erase_iff.1 hx
          rw [eraseImpl_getterR_agree hxne] at hk
          exact absurd hk (habs x hxm)
      have hcl1 : containsL lessL (eraseImpl m lid).1 (default : L) =
          false := by
        cases hc : containsL lessL (eraseImpl m lid).1 (default : L)
        · rfl
        · obtain ⟨x, hx, hk⟩ := (containsL_iff hL wf1).1 hc
          rw [eraseImpl_inorderL wf] at hx
          obtain ⟨hxne, hxm⟩ := wf.nodupL.mem_erase_iff.1 hx
          rw [eraseImpl_getterL_agree hxne] at hk
          exact (hxne (wf_getterL_inj hL wf hxm hlidL
            (hk.trans hlidK.symm))).elim
      have hredIns : insertB lessL lessR (eraseImpl m lid).1 (default : L)
          k2 pL pR =
          (insertedState lessL lessR (eraseImpl m lid).1 (default : L)
            k2 pL pR, some (eraseImpl m lid).1.nextId) := by
        simp [insertB, hcl1, hcr1]
      have wf2 : WF lessL lessR (insertedState lessL lessR
          (eraseImpl m lid).1 (default : L) k2 pL pR) :=
        wf_insertedState hL hR wf1 hcl1 hcr1
      have hred : atROrDefault lessL lessR m k2 pL pR =
          (insertedState lessL lessR (eraseImpl m lid).1 (default : L)
            k2 pL pR,
           (insertedState lessL lessR (eraseImpl m lid).1 (default : L)
            k2 pL pR).getterL (eraseImpl m lid).1.nextId) := by
        simp only [atROrDefault, hf, hf2, hredIns]
      rw [hred]
      have hnewL : (insertedState lessL lessR (eraseImpl m lid).1
            (default : L) k2 pL pR).getterL
          (eraseImpl m lid).1.nextId = (default : L) :=
        insertedState_getterL_new
      have hnewR : (insertedState lessL lessR (eraseImpl m lid).1
            (default : L) k2 pL pR).getterR
          (eraseImpl m lid).1.nextId = k2 := insertedState_getterR_new
      refine ⟨hnewL, ?_, ?_, ?_⟩
      · refine ⟨(eraseImpl m lid).1.nextId, ?_, hnewL⟩
        rw [findR]
        refine tfind_of_mem hR wf2.bstR ?_ hnewR
        exact insertedState_inorderR_perm.mem_iff.2 (List.mem_cons_self _ _)
      · intro lid2 hlid2 hkey2
        have hlideq : lid2 = lid :=
          wf_getterL_inj hL wf hlid2 hlidL (hkey2.trans hlidK.symm)
        subst hlideq
        rw [findR]
        refine tfind_none hR ?_
        intro x hx heq
        rcases List.mem_cons.1 (insertedState_inorderR_perm.mem_iff.1 hx)
          with rfl | hxm
        · rw [hnewR] at heq
          exact habs lid2 hlidR heq.symm
        · have hxlt : x ≠ (eraseImpl m lid2).1.nextId :=
            Nat.ne_of_lt (wf1.mem_lt_nextId (wf1.memLR.1 hxm))
          rw [insertedState_getterR_old hxlt] at heq
          rw [eraseImpl_inorderR wf] at hxm
          obtain ⟨hxne, hxm2⟩ := wf.nodupR.mem_erase_iff.1 hxm
          rw [eraseImpl_getterR_agree hxne] at heq
          exact hxne (wf_getterR_inj hR wf hxm2 hlidR heq)
      · intro x hx hxd
        have hxne : x ≠ lid := fun he => hxd (he ▸ hlidK)
        have hxL : x ∈ m.treeL.inorder := wf.memLR.1 hx
        have hxm1L : x ∈ (eraseImpl m lid).1.treeL.inorder := by
          rw [eraseImpl_inorderL wf]
          exact wf.nodupL.mem_erase_iff.2 ⟨hxne, hxL⟩
        have hxm1R : x ∈ (eraseImpl m lid).1.treeR.inorder := by
          rw [eraseImpl_inorderR wf]
          exact wf.nodupR.mem_erase_iff.2 ⟨hxne, hx⟩
        have hxlt : x ≠ (eraseImpl m lid).1.nextId :=
          Nat.ne_of_lt (wf1.mem_lt_nextId hxm1L)
        have hgl : (insertedState lessL lessR (eraseImpl m lid).1
            (default : L) k2 pL pR).getterL x = m.getterL x := by
          rw [insertedState_getterL_old hxlt,
            eraseImpl_getterL_agree hxne]
        have hgr : (insertedState lessL lessR (eraseImpl m lid).1
            (default : L) k2 pL pR).getterR x = m.getterR x := by
          rw [insertedState_getterR_old hxlt,
            eraseImpl_getterR_agree hxne]
        constructor
        · rw [findR]
          refine tfind_of_mem hR wf2.bstR ?_ hgr
          exact insertedState_inorderR_perm.mem_iff.2
            (List.mem_cons_of_mem _ hxm1R)
        · rw [findL]
          refine tfind_of_mem hL wf2.bstL ?_ hgl
          exact insertedState_inorderL_perm.mem_iff.2
            (List.mem_cons_of_mem _ hxm1L)
    | none =>
      have hcr1 : containsR lessR m k2 = false := by
        rw [containsR, findR, tfind_none hR habs]
        rfl
      have hcl1 : containsL lessL m (default : L) = false := by
        rw [containsL, hf2]
        rfl
      have hredIns : insertB lessL lessR m (default : L) k2 pL pR =
          (insertedState lessL lessR m (default : L) k2 pL pR,
            some m.nextId) := by
        simp [insertB, hcl1, hcr1]
      have wf2 : WF lessL lessR (insertedState lessL lessR m (default : L)
          k2 pL pR) := wf_insertedState hL hR wf hcl1 hcr1
      have hred : atROrDefault lessL lessR m k2 pL pR =
          (insertedState lessL lessR m (default : L) k2 pL pR,
           (insertedState lessL lessR m (default : L) k2 pL pR).getterL
             m.nextId) := by
        simp only [atROrDefault, hf, hf2, hredIns]
      rw [hred]
      have hnewL : (insertedState lessL lessR m (default : L) k2 pL
            pR).getterL m.nextId = (default : L) :=
        insertedState_getterL_new
      have hnewR : (insertedState lessL lessR m (default : L) k2 pL
            pR).getterR m.nextId = k2 := insertedState_getterR_new
      refine ⟨hnewL, ?_, ?_, ?_⟩
      · refine ⟨m.nextId, ?_, hnewL⟩
        rw [findR]
        refine tfind_of_mem hR wf2.bstR ?_ hnewR
        exact insertedState_inorderR_perm.mem_iff.2 (List.mem_cons_self _ _)
      · intro lid hlid hkey
        have : findL lessL m (default : L) = some lid := by
          rw [findL]
          exact tfind_of_mem hL wf.bstL hlid hkey
        rw [hf2] at this
        exact absurd this (by simp)
      · intro x hx hxd
        have hxL : x ∈ m.treeL.inorder := wf.memLR.1 hx
        have hxlt : x ≠ m.nextId := Nat.ne_of_lt (wf.mem_lt_nextId hxL)
        have hgl : (insertedState lessL lessR m (default : L) k2 pL
            pR).getterL x = m.getterL x := insertedState_getterL_old hxlt
        have hgr : (insertedState lessL lessR m (default : L) k2 pL
            pR).getterR x = m.getterR x := insertedState_getterR_old hxlt
        constructor
        · rw [findR]
          refine tfind_of_mem hR wf2.bstR ?_ hgr
          exact insertedState_inorderR_perm.mem_iff.2
            (List.mem_cons_of_mem _ hx)
        · rw [findL]
          refine tfind_of_mem hL wf2.bstL ?_ hgl
          exact insertedState_inorderL_perm.mem_iff.2
            (List.mem_cons_of_mem _ hxL)

/-- Witness for C5: `at_left_or_default(7)` on the bimap
{(5, 0), (6, 70)} (with 0 the default right value) erases the pair
(5, 0) and returns 0. -/
theorem c5_at_or_default_witness :
    (atLOrDefault intLt intLt (insertB intLt intLt (insertB intLt intLt
        Bimap.empty 5 0 4 4).1 6 70 2 2).1 7 3 3).2 = (default : Int) ∧
    findL intLt (atLOrDefault intLt intLt (insertB intLt intLt
        (insertB intLt intLt Bimap.empty 5 0 4 4).1 6 70 2 2).1
          7 3 3).1
      ((insertB intLt intLt (insertB intLt intLt Bimap.empty
        5 0 4 4).1 6 70 2 2).1.getterL 0) = none := by
  have hwf : WF intLt intLt (insertB intLt intLt (insertB intLt intLt
      Bimap.empty 5 0 4 4).1 6 70 2 2).1 :=
    reach_wf slo_intLt slo_intLt
      (Reachable.insert 6 70 2 2 (Reachable.insert 5 0 4 4 Reachable.empty))
  have h := (c5_at_or_default slo_intLt slo_intLt hwf 7 0 3 3).2.1
    (by decide)
  refine ⟨h.1, ?_⟩
  have h3 := h.2.2.1 0 (by decide) (by decide)
  exact h3

theorem eraseLRangeAux_drain {L R : Type} [Inhabited L] [Inhabited R]
    {lessL : L → L → Bool} {lessR : R → R → Bool}
    (hL : SLO lessL) (hR : SLO lessR) :
    ∀ (fuel : Nat) (m : Bimap L R), Bimap.WF lessL lessR m →
      m.treeL.inorder.length < fuel →
      (Bimap.eraseLRangeAux fuel m m.treeL.inorder.head? none).1.recs = [] ∧
      (Bimap.eraseLRangeAux fuel m m.treeL.inorder.head? none).1.size = 0 ∧
      (Bimap.eraseLRangeAux fuel m
        m.treeL.inorder.head? none).1.treeL.inorder = [] := by
  intro fuel
  induction fuel with
  | zero => intro m _ hlt; exact absurd hlt (Nat.not_lt_zero _)
  | succ fuel ih =>
    intro m wf hlt
    cases hio : m.treeL.inorder with
    | nil =>
      have hrecs : m.recs = [] := by
        have h1 : (m.recs.map Prod.fst).Perm ([] : List Nat) :=
          hio ▸ wf.recsKeys
        have h2 := h1.eq_nil
        exact List.map_eq_nil.1 h2
      have hsz : m.size = 0 := by rw [wf.sizeEq, hio]; rfl
      simp only [List.head?_nil]
      have hred : Bimap.eraseLRangeAux (fuel + 1) m none none =
          (m, none) := by
        simp [Bimap.eraseLRangeAux]
      rw [hred]
      exact ⟨hrecs, hsz, hio⟩
    | cons d rest =>
      have hd : d ∈ m.treeL.inorder := by rw [hio]; exact List.mem_cons_self _ _
      have wf2 := Bimap.wf_eraseImpl hL hR wf hd
      have hio2 : (Bimap.eraseImpl m d).1.treeL.inorder = rest := by
        rw [Bimap.eraseImpl_inorderL wf, hio, List.erase_cons_head]
      have hsucc : (Bimap.eraseLIt m d).2 = rest.head? := by
        rw [Bimap.eraseLIt_eq]
        show tsucc m.treeL d = rest.head?
        rw [tsucc_spec wf.nodupL hd, hio, afterIn, if_pos rfl]
      simp only [List.head?_cons]
      have hstep : Bimap.eraseLRangeAux (fuel + 1) m (some d) none =
          Bimap.eraseLRangeAux fuel (Bimap.eraseLIt m d).1
            (Bimap.eraseLIt m d).2 none := by
        simp only [Bimap.eraseLRangeAux]
        rw [if_neg (by simp)]
      rw [hstep, hsucc]
      have hlen : (Bimap.eraseLIt m d).1.treeL.inorder.length < fuel := by
        show (Bimap.eraseImpl m d).1.treeL.inorder.length < fuel
        rw [hio2]
        rw [hio] at hlt
        simpa using Nat.lt_of_succ_lt_succ hlt
      have hhead : rest.head? =
          (Bimap.eraseLIt m d).1.treeL.inorder.head? := by
        show rest.head? = (Bimap.eraseImpl m d).1.treeL.inorder.head?
        rw [hio2]
      rw [hhead]
      exact ih (Bimap.eraseLIt m d).1 wf2 hlen

theorem eraseAll_drain {L R : Type} [Inhabited L] [Inhabited R]
    {lessL : L → L → Bool} {lessR : R → R → Bool}
    (hL : SLO lessL) (hR : SLO lessR) {m : Bimap L R}
    (wf : Bimap.WF lessL lessR m) :
    m.eraseAll.recs = [] ∧ m.eraseAll.size = 0 ∧
      m.eraseAll.treeL.inorder = [] := by
  have hb : m.beginL = m.treeL.inorder.head? := by
    rw [Bimap.beginL, tfirst_eq_head]
  have hfuel : m.treeL.inorder.length < m.treeL.numNodes + 1 := by
    rw [numNodes_eq_length]
    exact Nat.lt_succ_self _
  have := eraseLRangeAux_drain hL hR (m.treeL.numNodes + 1) m wf hfuel
  rw [← hb] at this
  exact this

theorem insertAllFrom_spec {L R : Type} [Inhabited L] [Inhabited R]
    {lessL : L → L → Bool} {lessR : R → R → Bool}
    (hL : SLO lessL) (hR : SLO lessR) (fails : Nat → Bool)
    (prios : Nat → Int × Int) :
    ∀ (ps : List (L × R)) (k : Nat) (acc : Bimap L R),
      Bimap.WF lessL lessR acc →
      (acc.pairsL.map Prod.fst ++ ps.map Prod.fst).Nodup →
      (acc.pairsL.map Prod.snd ++ ps.map Prod.snd).Nodup →
      (∀ c, Bimap.insertAllFrom lessL lessR fails prios ps k acc = .ok c →
        Bimap.WF lessL lessR c ∧ c.pairsL.Perm (acc.pairsL ++ ps)) ∧
      (∀ u, Bimap.insertAllFrom lessL lessR fails prios ps k acc =
          .error u → u.recs = [] ∧ u.size = 0) := by
  intro ps
  induction ps with
  | nil =>
    intro k acc wf _ _
    constructor
    · intro c hc
      rw [Bimap.insertAllFrom] at hc
      obtain rfl : acc = c := by
        injection hc
      exact ⟨wf, by simp⟩
    · intro u hu
      rw [Bimap.insertAllFrom] at hu
      exact absurd hu (by simp)
  | cons p rest ih =>
    intro k acc wf hndL hndR
    obtain ⟨l, r⟩ := p
    by_cases hfk : fails k = true
    · have hred : Bimap.insertAllFrom lessL lessR fails prios
          ((l, r) :: rest) k acc = .error acc.eraseAll := by
        rw [Bimap.insertAllFrom, if_pos hfk]
      rw [hred]
      constructor
      · intro c hc; exact absurd hc (by simp)
      · intro u hu
        obtain rfl : acc.eraseAll = u := by injection hu
        obtain ⟨h1, h2, _⟩ := eraseAll_drain hL hR wf
        exact ⟨h1, h2⟩
    · have hlmem : l ∉ acc.pairsL.map Prod.fst := by
        intro hmem
        exact (List.nodup_append.1 hndL).2.2 hmem (by simp)
      have hrmem : r ∉ acc.pairsL.map Prod.snd := by
        intro hmem
        exact (List.nodup_append.1 hndR).2.2 hmem (by simp)
      have hcl : Bimap.containsL lessL acc l = false := by
        cases hc : Bimap.containsL lessL acc l
        · rfl
        · obtain ⟨d, hdm, hk⟩ := (Bimap.containsL_iff hL wf).1 hc
          refine (hlmem ?_).elim
          rw [pairsL_map_fst, keysOf]
          exact hk ▸ List.mem_map_of_mem acc.getterL hdm
      have hcr : Bimap.containsR lessR acc r = false := by
        cases hc : Bimap.containsR lessR acc r
        · rfl
        · obtain ⟨d, hdm, hk⟩ := (Bimap.containsR_iff hR wf).1 hc
          refine (hrmem ?_).elim
          rw [pairsL_map_snd]
          exact hk ▸ List.mem_map_of_mem acc.getterR (wf.memLR.1 hdm)
      have hredIns : Bimap.insertB lessL lessR acc l r (prios k).1
          (prios k).2 =
          (Bimap.insertedState lessL lessR acc l r (prios k).1
            (prios k).2, some acc.nextId) := by
        simp [Bimap.insertB, hcl, hcr]
      have hred : Bimap.insertAllFrom lessL lessR fails prios
          ((l, r) :: rest) k acc =
          Bimap.insertAllFrom lessL lessR fails prios rest (k + 1)
            (Bimap.insertedState lessL lessR acc l r (prios k).1
              (prios k).2) := by
        rw [Bimap.insertAllFrom, if_neg (by simp [hfk]), hredIns]
      have wf1 : Bimap.WF lessL lessR (Bimap.insertedState lessL lessR acc
          l r (prios k).1 (prios k).2) :=
        Bimap.wf_insertedState hL hR wf hcl hcr
      have hpp : (Bimap.insertedState lessL lessR acc l r (prios k).1
          (prios k).2).pairsL.Perm ((l, r) :: acc.pairsL) :=
        Bimap.insertedState_pairsL_perm wf
      have hndL1 : ((Bimap.insertedState lessL lessR acc l r (prios k).1
          (prios k).2).pairsL.map Prod.fst ++
            rest.map Prod.fst).Nodup := by
        refine (((hpp.map Prod.fst).append_right _).nodup_iff).2 ?_
        have hperm2 : ((l :: acc.pairsL.map Prod.fst) ++
            rest.map Prod.fst).Perm
            (acc.pairsL.map Prod.fst ++
              (((l, r) : L × R) :: rest).map Prod.fst) := by
          show ((l :: acc.pairsL.map Prod.fst) ++
            rest.map Prod.fst).Perm
            (acc.pairsL.map Prod.fst ++ l :: rest.map Prod.fst)
          exact List.perm_middle.symm
        exact (hperm2.nodup_iff).2 hndL
      have hndR1 : ((Bimap.insertedState lessL lessR acc l r (prios k).1
          (prios k).2).pairsL.map Prod.snd ++
            rest.map Prod.snd).Nodup := by
        refine (((hpp.map Prod.snd).append_right _).nodup_iff).2 ?_
        have hperm2 : ((r :: acc.pairsL.map Prod.snd) ++
            rest.map Prod.snd).Perm
            (acc.pairsL.map Prod.snd ++
              (((l, r) : L × R) :: rest).map Prod.snd) := by
          show ((r :: acc.pairsL.map Prod.snd) ++
            rest.map Prod.snd).Perm
            (acc.pairsL.map Prod.snd ++ r :: rest.map Prod.snd)
          exact List.perm_middle.symm
        exact (hperm2.nodup_iff).2 hndR
      obtain ⟨hok, herr⟩ := ih (k + 1)
        (Bimap.insertedState lessL lessR acc l r (prios k).1 (prios k).2)
        wf1 hndL1 hndR1
      rw [hred]
      constructor
      · intro c hc
        obtain ⟨wfc, hpc⟩ := hok c hc
        refine ⟨wfc, hpc.trans ?_⟩
        refine (hpp.append_right _).trans ?_
        show (((l, r) :: acc.pairsL) ++ rest).Perm
          (acc.pairsL ++ (l, r) :: rest)
        exact List.perm_middle.symm
      · exact herr

/-- Claim C8: two bimaps over the same key and comparator types compare
equal iff they have equal `size()` and position-by-position equal left
and right keys when both are iterated in left-view order; in particular,
two instances populated with the same multiset of key-distinct pairs in
different insertion orders (with arbitrary, possibly different, random
priorities, hence different tree shapes) compare equal. -/
theorem c8_equality {L R : Type} [Inhabited L] [Inhabited R]
    [DecidableEq L] [DecidableEq R]
    {lessL : L → L → Bool} {lessR : R → R → Bool}
    (hL : SLO lessL) (hR : SLO lessR) :
    (∀ {a b : Bimap L R}, WF lessL lessR a → WF lessL lessR b →
      (bimapEq a b = true ↔ a.size = b.size ∧ a.pairsL = b.pairsL)) ∧
    (∀ ps1 ps2 : List ((L × R) × Int × Int),
      (ps1.map Prod.fst).Perm (ps2.map Prod.fst) →
      (ps1.map (fun p => p.1.1)).Nodup →
      (ps1.map (fun p => p.1.2)).Nodup →
      bimapEq (insertList lessL lessR ps1) (insertList lessL lessR ps2) =
        true) := by
  have hiff : ∀ {a b : Bimap L R}, WF lessL lessR a → WF lessL lessR b →
      (bimapEq a b = true ↔ a.size = b.size ∧ a.pairsL = b.pairsL) := by
    intro a b wfa wfb
    rw [bimapEq, Bool.and_eq_true, decide_eq_true_eq]
    constructor
    · rintro ⟨hsz, hq⟩
      have hlen : a.pairsL.length = b.pairsL.length := by
        rw [pairsL_length, pairsL_length, ← wfa.sizeEq, ← wfb.sizeEq, hsz]
      exact ⟨hsz, (eqPairs_iff hlen).1 hq⟩
    · rintro ⟨hsz, hpq⟩
      exact ⟨hsz, (eqPairs_iff (by rw [hpq])).2 hpq⟩
  refine ⟨hiff, ?_⟩
  intro ps1 ps2 hperm hnd1L hnd1R
  have hmfL : ∀ ps : List ((L × R) × Int × Int),
      ps.map (fun p => p.1.1) = (ps.map Prod.fst).map Prod.fst := by
    intro ps; simp [List.map_map]
  have hmfR : ∀ ps : List ((L × R) × Int × Int),
      ps.map (fun p => p.1.2) = (ps.map Prod.fst).map Prod.snd := by
    intro ps; simp [List.map_map]
  have hnd2L : (ps2.map (fun p => p.1.1)).Nodup := by
    rw [hmfL]
    rw [hmfL] at hnd1L
    exact (hperm.map Prod.fst).nodup_iff.1 hnd1L
  have hnd2R : (ps2.map (fun p => p.1.2)).Nodup := by
    rw [hmfR]
    rw [hmfR] at hnd1R
    exact (hperm.map Prod.snd).nodup_iff.1 hnd1R
  have hc1 := insertListFrom_spec hL hR ps1 empty wf_empty
    (by simpa [pairsL, empty, TTree.inorder] using hnd1L)
    (by simpa [pairsL, empty, TTree.inorder] using hnd1R)
  have hc2 := insertListFrom_spec hL hR ps2 empty wf_empty
    (by simpa [pairsL, empty, TTree.inorder] using hnd2L)
    (by simpa [pairsL, empty, TTree.inorder] using hnd2R)
  obtain ⟨wf1, hp1⟩ := hc1
  obtain ⟨wf2, hp2⟩ := hc2
  have hpp : (insertList lessL lessR ps1).pairsL.Perm
      (insertList lessL lessR ps2).pairsL := by
    refine hp1.trans (.trans ?_ hp2.symm)
    have he : (empty : Bimap L R).pairsL = [] := rfl
    rw [he, List.nil_append, List.nil_append]
    exact hperm
  have hasymm : ∀ p q : L × R, (lessL p.1 q.1 = true) →
      (lessL q.1 p.1 = true) → False := by
    intro p q h1 h2
    rw [slo_asymm hL h1] at h2
    exact Bool.noConfusion h2
  have heq : (insertList lessL lessR ps1).pairsL =
      (insertList lessL lessR ps2).pairsL :=
    pairwise_perm_eq hasymm hpp (pairsL_sorted hL wf1) (pairsL_sorted hL wf2)
  refine (hiff wf1 wf2).2 ⟨?_, heq⟩
  rw [wf1.sizeEq, wf2.sizeEq, ← pairsL_length, ← pairsL_length]
  exact congrArg List.length heq

/-- Witness for C8: {(1,2),(2,3)} inserted in the two orders, with
different priorities, compares equal. -/
theorem c8_equality_witness :
    bimapEq (insertList intLt intLt [((1, 2), 5, 5), ((2, 3), 1, 1)])
      (insertList intLt intLt [((2, 3), 9, 9), ((1, 2), 2, 2)]) = true := by
  refine (c8_equality slo_intLt slo_intLt).2
    [((1, 2), 5, 5), ((2, 3), 1, 1)] [((2, 3), 9, 9), ((1, 2), 2, 2)]
    ?_ (by decide) (by decide)
  decide

/-- Claim C9: the copy constructor (to which copy assignment delegates
via `bimap copied = bimap(other); *this = std::move(copied)`) inserts
every pair of the source, in left-view order, into a fresh instance:
when no insertion fails the copy holds exactly the source's pair list
and size; when the k-th insertion throws, the handler destroys every
pair already inserted into the partially built copy (the propagated
state is empty) before re-raising.  The source is passed immutably in
the embedding, so it is unchanged by construction in all cases. -/
theorem c9_copy {L R : Type} [Inhabited L] [Inhabited R]
    {lessL : L → L → Bool} {lessR : R → R → Bool}
    (hL : SLO lessL) (hR : SLO lessR) {m : Bimap L R}
    (wf : WF lessL lessR m) (fails : Nat → Bool)
    (prios : Nat → Int × Int) :
    (∀ c, copyB lessL lessR fails prios m = .ok c →
      WF lessL lessR c ∧ c.pairsL = m.pairsL ∧ c.size = m.size) ∧
    (∀ u, copyB lessL lessR fails prios m = .error u →
      u.recs = [] ∧ u.size = 0) := by
  have h1 : ((empty : Bimap L R).pairsL.map Prod.fst ++
      m.pairsL.map Prod.fst).Nodup := by
    have he : (empty : Bimap L R).pairsL = [] := rfl
    rw [he, List.map_nil, List.nil_append, pairsL_map_fst]
    exact bst_keys_nodup hL wf.bstL
  have h2 : ((empty : Bimap L R).pairsL.map Prod.snd ++
      m.pairsL.map Prod.snd).Nodup := by
    have he : (empty : Bimap L R).pairsL = [] := rfl
    rw [he, List.map_nil, List.nil_append, pairsL_map_snd]
    have hpn : (m.treeL.inorder.map m.getterR).Perm
        (keysOf m.getterR m.treeR) := (wf.permLR.map m.getterR).symm
    exact hpn.nodup_iff.2 (bst_keys_nodup hR wf.bstR)
  obtain ⟨hok, herr⟩ := insertAllFrom_spec hL hR fails prios m.pairsL 0
    empty wf_empty h1 h2
  constructor
  · intro c hc
    obtain ⟨wfc, hcp⟩ := hok c hc
    have hcp2 : c.pairsL.Perm m.pairsL := by
      refine hcp.trans ?_
      have he : (empty : Bimap L R).pairsL = [] := rfl
      rw [he, List.nil_append]
    have hasymm : ∀ p q : L × R, (lessL p.1 q.1 = true) →
        (lessL q.1 p.1 = true) → False := by
      intro p q ha hb
      rw [slo_asymm hL ha] at hb
      exact Bool.noConfusion hb
    have heq : c.pairsL = m.pairsL :=
      pairwise_perm_eq hasymm hcp2 (pairsL_sorted hL wfc)
        (pairsL_sorted hL wf)
    refine ⟨wfc, heq, ?_⟩
    rw [wfc.sizeEq, wf.sizeEq, ← pairsL_length, ← pairsL_length, heq]
  · exact herr

/-- Witness for C9: copying the bimap {(1,2),(2,3)} with a failure
injected at the second insertion leaves the propagated (unwound) state
with no records. -/
theorem c9_copy_witness :
    (match copyB intLt intLt (fun k => decide (k = 1)) (fun j => (1, 1))
        (insertB intLt intLt (insertB intLt intLt Bimap.empty 1 2 5 5).1
          2 3 3 3).1 with
      | .error u => u
      | .ok c => c).recs = [] := by
  have hwf : WF intLt intLt (insertB intLt intLt (insertB intLt intLt
      Bimap.empty 1 2 5 5).1 2 3 3 3).1 :=
    reach_wf slo_intLt slo_intLt
      (Reachable.insert 2 3 3 3 (Reachable.insert 1 2 5 5 Reachable.empty))
  have h := (c9_copy slo_intLt slo_intLt hwf (fun k => decide (k = 1))
    (fun j => (1, 1))).2
  exact (h _ rfl).1

end Claims
